import Mathlib

/-!
# go-perceptron: an averaged perceptron over sparse feature vectors

A shallow embedding of `main.go`.

Modelling conventions.

* A Go `map[K]V` is a finite association list with pairwise distinct keys
  (`AList`).  Go leaves the iteration order of `range` over a map unspecified;
  the embedding iterates in the order of the entries, and the results proved
  below are stated through lookups, never through the order.
* A `float64` is an exact rational number.  Rounding, overflow and the
  non-finite values are outside the model, with one exception: a division
  whose divisor is zero does not produce a rational, so every `/` of the
  source goes through `fdiv`, which yields `none` there.
* A Go `int` is an `Int`.
* A Go `string` is the list of its characters.
-/

namespace Perceptron

/-- A Go `map[K]V`. -/
abbrev GoMap (κ : Type) (ν : Type) : Type := AList (fun _ : κ => ν)

/-- The two-result lookup `v, ok := m[k]` of Go: `none` stands for `ok = false`. -/
def GoMap.get {κ ν : Type} [DecidableEq κ] (m : GoMap κ ν) (k : κ) : Option ν :=
  AList.lookup k m

/-- The assignment `m[k] = v` of Go. -/
def GoMap.set {κ ν : Type} [DecidableEq κ] (m : GoMap κ ν) (k : κ) (v : ν) : GoMap κ ν :=
  AList.insert k v m

/-- The value read by `w, _ := m[k]`: the zero value when the key is absent. -/
def GoMap.getD {κ ν : Type} [DecidableEq κ] (m : GoMap κ ν) (k : κ) (d : ν) : ν :=
  (GoMap.get m k).getD d

/-- Division of `float64` values: `none` when the divisor is zero, where Go
produces `NaN` or an infinity. -/
def fdiv (a b : ℚ) : Option ℚ :=
  if b = 0 then none else some (a / b)

/-- The struct `Instance` of the source. -/
structure Instance where
  label : Int
  features : GoMap Int ℚ
  deriving DecidableEq

/-- The struct `Model` of the source. -/
structure Model where
  weight : GoMap Int ℚ
  cumWeight : GoMap Int ℚ
  count : Int
  deriving DecidableEq

/-- One iteration of the loop of `predictForTraining`. -/
def trainingScoreStep (model : Model) (result : ℚ) (kv : (_ : Int) × ℚ) : ℚ :=
  match model.weight.get kv.1 with
  | some w => result + w * kv.2
  | none => result

/-- The value of `result` when the loop of `predictForTraining` ends. -/
def trainingScore (model : Model) (features : GoMap Int ℚ) : ℚ :=
  features.entries.foldl (trainingScoreStep model) 0

/-- The method `predictForTraining` of the source. -/
def predictForTraining (model : Model) (features : GoMap Int ℚ) : Int :=
  if trainingScore model features > 0 then 1 else -1

/-- One iteration of the update loop of `Learn`. -/
def learnStep (label : Int) (model : Model) (kv : (_ : Int) × ℚ) : Model :=
  let w := model.weight.getD kv.1 0
  let cumW := model.cumWeight.getD kv.1 0
  { weight := model.weight.set kv.1 (w + (label : ℚ) * kv.2)
    cumWeight := model.cumWeight.set kv.1 (cumW + (model.count : ℚ) * (label : ℚ) * kv.2)
    count := model.count }

/-- The method `Learn` of the source; the updated model is returned. -/
def Learn (model : Model) (instance_ : Instance) : Model :=
  let predict := predictForTraining model instance_.features
  if instance_.label ≠ predict then
    let model1 := instance_.features.entries.foldl (learnStep instance_.label) model
    { model1 with count := model1.count + 1 }
  else
    model

/-- One iteration of the loop of `Predict`; `none` once a division by a zero
`count` has taken the score out of the rationals. -/
def predictStep (model : Model) (result : Option ℚ) (kv : (_ : Int) × ℚ) : Option ℚ :=
  match result with
  | none => none
  | some r =>
    let r1 := match model.weight.get kv.1 with
      | some w => r + w * kv.2
      | none => r
    match model.cumWeight.get kv.1 with
    | some w =>
      match fdiv (w * kv.2) (model.count : ℚ) with
      | some q => some (r1 - q)
      | none => none
    | none => some r1

/-- The value of `result` when the loop of `Predict` ends. -/
def predictScore (model : Model) (features : GoMap Int ℚ) : Option ℚ :=
  features.entries.foldl (predictStep model) (some 0)

/-- The method `Predict` of the source; `none` when the score is not a
rational number. -/
def Predict (model : Model) (features : GoMap Int ℚ) : Option Int :=
  match predictScore model features with
  | some result => some (if result > 0 then 1 else -1)
  | none => none

/-- The model built in `main`: two empty maps and `count = 1`. -/
def initialModel : Model :=
  { weight := ∅, cumWeight := ∅, count := 1 }

/-- Feature map with the single entry `f ↦ v`. -/
def singleFeature (f : Int) (v : ℚ) : GoMap Int ℚ :=
  GoMap.set ∅ f v

/-- The loop of `GetAccuracy` over the rest of `gold`, `i` being the index of
its first element and `sum` the running value.  The guard on the lengths keeps
`predict[i]` in range; an index out of range compares as unequal. -/
def accuracyLoop (predict : List Int) : List Int → Nat → ℚ → ℚ
  | [], _, sum => sum
  | v :: rest, i, sum =>
    accuracyLoop predict rest (i + 1) (if some v = predict[i]? then sum + 1 else sum)

/-- The function `GetAccuracy` of the source; `none` when the final division
is by zero. -/
def GetAccuracy (gold : List Int) (predict : List Int) : Option ℚ :=
  if gold.length ≠ predict.length then
    some 0
  else
    fdiv (accuracyLoop predict gold 0 0) (gold.length : ℚ)

/-- The number of positions `i` with `gold[i] = predict[i]`. -/
def agreeCount (gold : List Int) (predict : List Int) : Nat :=
  (List.range gold.length).countP (fun i => gold[i]? = predict[i]?)

/-- A model with one weight: `weight = {0 ↦ 1}`, `cumWeight = {0 ↦ 3}`, `count = 4`. -/
def sampleModel : Model :=
  { weight := GoMap.set ∅ 0 1, cumWeight := GoMap.set ∅ 0 3, count := 4 }

/-! ## Strings, the vocabulary and the line parser -/

/-- A Go `string`. -/
abbrev GoString : Type := List Char

/-- White space as defined by Unicode (`unicode.IsSpace`), which is what
`strings.TrimSpace` removes. -/
def isSpace (c : Char) : Bool :=
  c = ' ' || (0x09 ≤ c.toNat && c.toNat ≤ 0x0D) || c.toNat = 0x85 || c.toNat = 0xA0
    || c.toNat = 0x1680 || (0x2000 ≤ c.toNat && c.toNat ≤ 0x200A)
    || c.toNat = 0x2028 || c.toNat = 0x2029 || c.toNat = 0x202F
    || c.toNat = 0x205F || c.toNat = 0x3000

/-- The library function `strings.TrimSpace`: leading and trailing white space
removed. -/
def TrimSpace (s : GoString) : GoString :=
  (s.dropWhile isSpace).rdropWhile isSpace

/-- The library function `strings.Split` for a separator of one character:
the pieces of `s` between the occurrences of `sep`, `[s]` when there is none. -/
def Split (s : GoString) (sep : Char) : List GoString :=
  s.splitOn sep

/-- The value of a decimal digit. -/
def digitValue (c : Char) : Option Nat :=
  if '0'.toNat ≤ c.toNat ∧ c.toNat ≤ '9'.toNat then some (c.toNat - '0'.toNat) else none

/-- The digits of `s` read from the left in base 10, `acc` being the value
read so far; `none` at a character that is not a digit. -/
def parseDigits : GoString → Nat → Option Nat
  | [], acc => some acc
  | c :: cs, acc =>
    match digitValue c with
    | some d => parseDigits cs (acc * 10 + d)
    | none => none

/-- The library function `strconv.ParseInt(s, 10, bitSize)`: an optional sign
followed by one or more decimal digits, the value fitting in `bitSize` bits;
`none` stands for a non-nil error. -/
def ParseInt (s : GoString) (bitSize : Nat) : Option Int :=
  match s with
  | [] => none
  | c :: cs =>
    let neg : Bool := c = '-'
    let digits : GoString := if c = '+' ∨ c = '-' then cs else c :: cs
    if digits = [] then none
    else
      match parseDigits digits 0 with
      | none => none
      | some un =>
        let cutoff : Nat := 2 ^ (bitSize - 1)
        if !neg && decide (un ≥ cutoff) then none
        else if neg && decide (un > cutoff) then none
        else some (if neg then -(un : Int) else (un : Int))

/-- A value parser for concrete runs: it accepts the decimal integer literals,
a fragment of what `strconv.ParseFloat` accepts, with the same value. -/
def integerParseFloat (s : GoString) : Option ℚ :=
  (ParseInt s 32).map (fun n => (n : ℚ))

/-- The global map `str2id` of the source. -/
abbrev Vocabulary : Type := GoMap GoString Int

/-- The function `GetId` of the source, the global `str2id` being passed in
and returned next to the id. -/
def GetId (str2id : Vocabulary) (str : GoString) : Int × Vocabulary :=
  match str2id.get str with
  | some id => (id, str2id)
  | none =>
    let l : Int := (str2id.entries.length : Int)
    (l, str2id.set str l)

/-- How a call ends: with a value, with a non-nil `error`, or in a run-time
panic. -/
inductive Outcome (α : Type) where
  | ok (a : α) : Outcome α
  | error : Outcome α
  | panic : Outcome α
  deriving DecidableEq

/-- The loop of `ParseLine` over the feature tokens: `tmp[1]` panics when the
token holds no `:`; `parseFloat` stands for `strconv.ParseFloat(s, 64)`, `none`
being a non-nil error.  The vocabulary reached is returned in every case. -/
def parseFeatures (parseFloat : GoString → Option ℚ) :
    List GoString → GoMap Int ℚ → Vocabulary → Vocabulary × Outcome (GoMap Int ℚ)
  | [], features, str2id => (str2id, Outcome.ok features)
  | v :: rest, features, str2id =>
    let tmp := Split v ':'
    match tmp[1]? with
    | none => (str2id, Outcome.panic)
    | some t1 =>
      match parseFloat t1 with
      | none => (str2id, Outcome.error)
      | some n =>
        let r := GetId str2id (tmp.headD [])
        parseFeatures parseFloat rest (features.set r.1 n) r.2

/-- The function `ParseLine` of the source. -/
def ParseLine (parseFloat : GoString → Option ℚ) (str2id : Vocabulary) (line : GoString) :
    Vocabulary × Outcome Instance :=
  let tmp := Split (TrimSpace line) ' '
  if tmp.length < 2 then
    (str2id, Outcome.error)
  else
    match ParseInt (tmp.headD []) 32 with
    | none => (str2id, Outcome.error)
    | some label =>
      match parseFeatures parseFloat tmp.tail ∅ str2id with
      | (str2id1, Outcome.ok features) =>
        (str2id1, Outcome.ok { label := label, features := features })
      | (str2id1, Outcome.error) => (str2id1, Outcome.error)
      | (str2id1, Outcome.panic) => (str2id1, Outcome.panic)

/-- The vocabulary after `GetId` has been called on each of `names`, from
left to right. -/
def registerAll (str2id : Vocabulary) (names : List GoString) : Vocabulary :=
  names.foldl (fun v n => (GetId v n).2) str2id

/-- A feature of a line: its name, the token of its value and the number that
token stands for. -/
abbrev Feature : Type := GoString × GoString × ℚ

/-- The token `name:value` of a feature. -/
def featureToken (t : Feature) : GoString :=
  t.1 ++ ':' :: t.2.1

/-- The value of the last feature of the list that bears the name `name`. -/
def lastValue (feats : List Feature) (name : GoString) : Option ℚ :=
  (feats.reverse.find? (fun t => t.1 = name)).map (fun t => t.2.2)

/-- The ids of a vocabulary are pairwise distinct and lie below its size, as
they do in every vocabulary that `GetId` has built from the empty one. -/
def Vocabulary.WellFormed (str2id : Vocabulary) : Prop :=
  (∀ e ∈ str2id.entries, e.2 < (str2id.entries.length : Int)) ∧
    (str2id.entries.map (fun e => e.2)).Nodup

/-- The features map and the vocabulary after the loop of `ParseLine` has
handled the features `feats`, from left to right. -/
def featuresAfter (feats : List Feature) (features : GoMap Int ℚ) (str2id : Vocabulary) :
    GoMap Int ℚ × Vocabulary :=
  feats.foldl (fun st t => ((st.1.set (GetId st.2 t.1).1 t.2.2), (GetId st.2 t.1).2))
    (features, str2id)

/-- The ids returned by `GetId` called on each of `names`, from left to right,
and the vocabulary reached. -/
def GetIdAll (str2id : Vocabulary) : List GoString → List Int × Vocabulary
  | [] => ([], str2id)
  | n :: ns =>
    ((GetId str2id n).1 :: (GetIdAll (GetId str2id n).2 ns).1,
      (GetIdAll (GetId str2id n).2 ns).2)

/-- The number of distinct names that occur in `names` strictly before the
first occurrence of `s`. -/
def firstSeenRank (names : List GoString) (s : GoString) : Nat :=
  ((names.takeWhile (fun t => decide (t ≠ s))).dedup).length

/-! ## The driver -/

/-- The conversion `int(f)` of a `float64`: truncation toward zero. -/
def truncate (q : ℚ) : Int :=
  if 0 ≤ q then Int.floor q else Int.ceil q

/-- The slice expression `data[:hi]`: a panic when `hi` is out of range.  Go
allows `hi` up to the capacity, which is at least the length; the driver never
asks for more than the length. -/
def sliceTo {α : Type} (data : List α) (hi : Int) : Outcome (List α) :=
  if 0 ≤ hi ∧ hi ≤ (data.length : Int) then Outcome.ok (data.take hi.toNat) else Outcome.panic

/-- The slice expression `data[lo:]`: a panic unless `0 ≤ lo ≤ len(data)`. -/
def sliceFrom {α : Type} (data : List α) (lo : Int) : Outcome (List α) :=
  if 0 ≤ lo ∧ lo ≤ (data.length : Int) then Outcome.ok (data.drop lo.toNat) else Outcome.panic

/-- The loop of `ReadData` over the lines that `Readln` delivers before its
first error: a line that `ParseLine` refuses is skipped, a panic ends the run. -/
def ReadData (parseFloat : GoString → Option ℚ) :
    List GoString → List Instance → Vocabulary → Outcome (List Instance)
  | [], result, _ => Outcome.ok result
  | s :: rest, result, str2id =>
    match ParseLine parseFloat str2id s with
    | (str2id1, Outcome.ok instance_) => ReadData parseFloat rest (result ++ [instance_]) str2id1
    | (str2id1, Outcome.error) => ReadData parseFloat rest result str2id1
    | (_, Outcome.panic) => Outcome.panic

/-- The function `ExtractGoldLabels` of the source. -/
def ExtractGoldLabels (data : List Instance) : List Int :=
  data.foldl (fun golds instance_ => golds ++ [instance_.label]) []

/-- The three lines of `main` that split the data: `n`, `train` and `test`. -/
def splitData (data : List Instance) : Outcome (List Instance × List Instance) :=
  let n := truncate ((data.length : ℚ) * (8 / 10))
  match sliceTo data n with
  | Outcome.ok train =>
    match sliceFrom data (n + 1) with
    | Outcome.ok test => Outcome.ok (train, test)
    | _ => Outcome.panic
  | _ => Outcome.panic

/-- The loops of `main` that collect the predictions of `Predict` over `data`;
`none` when a score is not a rational number. -/
def predictAll (model : Model) : List Instance → List Int → Option (List Int)
  | [], predicts => some predicts
  | instance_ :: rest, predicts =>
    match Predict model instance_.features with
    | some p => predictAll model rest (predicts ++ [p])
    | none => none

/-- One line of output: the epoch index and the two accuracies, `none` being
the `NaN` of a division of zero by zero. -/
structure Report where
  iter : Int
  trainAccuracy : Option ℚ
  testAccuracy : Option ℚ
  deriving DecidableEq

/-- The epoch loop of `main`, `fuel` being the number of iterations left and
`iter` the index of the next one; `none` when a score is not a rational
number. -/
def epochs (train test : List Instance) (trainGolds testGolds : List Int) :
    Nat → Int → Model → Option (List Report)
  | 0, _, _ => some []
  | fuel + 1, iter, model =>
    let model1 := train.foldl Learn model
    match predictAll model1 train [], predictAll model1 test [] with
    | some trainPredicts, some testPredicts =>
      match epochs train test trainGolds testGolds fuel (iter + 1) model1 with
      | some rest =>
        some ({ iter := iter
                trainAccuracy := GetAccuracy trainGolds trainPredicts
                testAccuracy := GetAccuracy testGolds testPredicts } :: rest)
      | none => none
    | _, _ => none

/-- The function `main` of the source, from the lines of the standard input to
the lines printed. -/
def main (parseFloat : GoString → Option ℚ) (input : List GoString) :
    Outcome (Option (List Report)) :=
  match ReadData parseFloat input [] ∅ with
  | Outcome.ok data =>
    match splitData data with
    | Outcome.ok (train, test) =>
      Outcome.ok (epochs train test (ExtractGoldLabels train) (ExtractGoldLabels test)
        10 0 initialModel)
    | _ => Outcome.panic
  | _ => Outcome.panic

/-- The four lines of the end-to-end example. -/
def exampleInput : List GoString :=
  ["1 a:1 b:1".toList, "-1 a:-1 b:1".toList, "1 a:1 b:1".toList, "-1 a:-1 b:1".toList]

/-- The mistake-driven updates made while `Learn` is called on the instances
in turn, starting from `model`: each instance that was updated on, with the
model right after its update. -/
def updates (model : Model) : List Instance → List (Instance × Model)
  | [] => []
  | instance_ :: rest =>
    if instance_.label ≠ predictForTraining model instance_.features then
      (instance_, Learn model instance_) :: updates (Learn model instance_) rest
    else
      updates (Learn model instance_) rest

/-- The sum of the squares of the values of a feature map. -/
def squaredNorm (x : GoMap Int ℚ) : ℚ :=
  (x.entries.map (fun kv => kv.2 * kv.2)).sum

/-- The sum over the features `f ↦ v` of `x` of `w[f] * v`, an entry absent
from `w` counting as 0. -/
def weightedSum (w : GoMap Int ℚ) (x : GoMap Int ℚ) : ℚ :=
  (x.entries.map (fun kv => w.getD kv.1 0 * kv.2)).sum

/-! ## The update loop of `Learn` -/

theorem learnStep_fold_count (label : Int) (l : List ((_ : Int) × ℚ)) (m : Model) :
    (l.foldl (learnStep label) m).count = m.count := by
  induction l generalizing m with
  | nil => rfl
  | cons kv l ih => simp only [List.foldl_cons]; rw [ih]; rfl

theorem learnStep_fold_weight_of_not_mem (label : Int) (k : Int)
    (l : List ((_ : Int) × ℚ)) (m : Model) (hk : k ∉ l.keys) :
    (l.foldl (learnStep label) m).weight.get k = m.weight.get k := by
  induction l generalizing m with
  | nil => rfl
  | cons kv l ih =>
    rw [List.keys_cons, List.mem_cons, not_or] at hk
    simp only [List.foldl_cons]
    rw [ih _ hk.2]
    exact AList.lookup_insert_ne hk.1

theorem learnStep_fold_cumWeight_of_not_mem (label : Int) (k : Int)
    (l : List ((_ : Int) × ℚ)) (m : Model) (hk : k ∉ l.keys) :
    (l.foldl (learnStep label) m).cumWeight.get k = m.cumWeight.get k := by
  induction l generalizing m with
  | nil => rfl
  | cons kv l ih =>
    rw [List.keys_cons, List.mem_cons, not_or] at hk
    simp only [List.foldl_cons]
    rw [ih _ hk.2]
    exact AList.lookup_insert_ne hk.1

theorem learnStep_fold_weight_of_mem (label : Int) (k : Int) (v : ℚ)
    (l : List ((_ : Int) × ℚ)) (m : Model) (hl : l.NodupKeys) (hk : Sigma.mk k v ∈ l) :
    (l.foldl (learnStep label) m).weight.get k
      = some (m.weight.getD k 0 + (label : ℚ) * v) := by
  induction l generalizing m with
  | nil => simp at hk
  | cons kv l ih =>
    rw [List.nodupKeys_cons] at hl
    simp only [List.foldl_cons]
    rcases List.mem_cons.1 hk with h | h
    · subst h
      rw [learnStep_fold_weight_of_not_mem label k l _ hl.1]
      exact AList.lookup_insert _
    · have hne : k ≠ kv.1 := by
        intro e
        exact hl.1 (e ▸ List.mem_keys_of_mem h)
      rw [ih _ hl.2 h]
      have : (learnStep label m kv).weight.getD k 0 = m.weight.getD k 0 := by
        show (GoMap.get _ k).getD 0 = (GoMap.get _ k).getD 0
        congr 1
        exact AList.lookup_insert_ne hne
      rw [this]

theorem learnStep_fold_cumWeight_of_mem (label : Int) (k : Int) (v : ℚ)
    (l : List ((_ : Int) × ℚ)) (m : Model) (hl : l.NodupKeys) (hk : Sigma.mk k v ∈ l) :
    (l.foldl (learnStep label) m).cumWeight.get k
      = some (m.cumWeight.getD k 0 + (m.count : ℚ) * (label : ℚ) * v) := by
  induction l generalizing m with
  | nil => simp at hk
  | cons kv l ih =>
    rw [List.nodupKeys_cons] at hl
    simp only [List.foldl_cons]
    rcases List.mem_cons.1 hk with h | h
    · subst h
      rw [learnStep_fold_cumWeight_of_not_mem label k l _ hl.1]
      exact AList.lookup_insert _
    · have hne : k ≠ kv.1 := by
        intro e
        exact hl.1 (e ▸ List.mem_keys_of_mem h)
      rw [ih _ hl.2 h]
      have : (learnStep label m kv).cumWeight.getD k 0 = m.cumWeight.getD k 0 := by
        show (GoMap.get _ k).getD 0 = (GoMap.get _ k).getD 0
        congr 1
        exact AList.lookup_insert_ne hne
      rw [this]
      rfl

theorem Learn_of_mistake (m : Model) (inst : Instance)
    (h : predictForTraining m inst.features ≠ inst.label) :
    Learn m inst =
      { weight := (inst.features.entries.foldl (learnStep inst.label) m).weight
        cumWeight := (inst.features.entries.foldl (learnStep inst.label) m).cumWeight
        count := m.count + 1 } := by
  unfold Learn
  simp only
  rw [if_pos (Ne.symm h), learnStep_fold_count]

theorem GoMap.get_iff_mem {κ ν : Type} [DecidableEq κ] (x : GoMap κ ν) (k : κ) (v : ν) :
    x.get k = some v ↔ Sigma.mk k v ∈ x.entries :=
  AList.mem_lookup_iff

/-- C1. When the training prediction differs from the label, `Learn` adds
`label * v` to the weight and `count * label * v` to the cumulative weight of
every feature `f ↦ v` of the instance (an absent entry reading as 0, `count`
being the counter before the call), and adds 1 to the counter. -/
theorem C1_learn_on_mistake (m : Model) (inst : Instance)
    (h : predictForTraining m inst.features ≠ inst.label) :
    (∀ f v, inst.features.get f = some v →
      (Learn m inst).weight.get f
          = some (m.weight.getD f 0 + (inst.label : ℚ) * v) ∧
      (Learn m inst).cumWeight.get f
          = some (m.cumWeight.getD f 0 + (m.count : ℚ) * (inst.label : ℚ) * v)) ∧
    (Learn m inst).count = m.count + 1 := by
  rw [Learn_of_mistake m inst h]
  refine ⟨fun f v hf => ⟨?_, ?_⟩, rfl⟩
  · exact learnStep_fold_weight_of_mem _ f v _ m inst.features.nodupKeys
      ((GoMap.get_iff_mem _ f v).1 hf)
  · exact learnStep_fold_cumWeight_of_mem _ f v _ m inst.features.nodupKeys
      ((GoMap.get_iff_mem _ f v).1 hf)

/-- C2. When the training prediction agrees with the label, `Learn` returns
the model it was given: weight, cumulative weight and counter are unchanged. -/
theorem C2_learn_no_mistake (m : Model) (inst : Instance)
    (h : predictForTraining m inst.features = inst.label) :
    Learn m inst = m := by
  unfold Learn
  simp only
  rw [if_neg (not_not.2 h.symm)]

/-! ## The two scores -/

theorem trainingScoreStep_eq (m : Model) (r : ℚ) (kv : (_ : Int) × ℚ) :
    trainingScoreStep m r kv = r + m.weight.getD kv.1 0 * kv.2 := by
  unfold trainingScoreStep GoMap.getD
  cases m.weight.get kv.1 <;> simp

theorem trainingScore_fold (m : Model) (l : List ((_ : Int) × ℚ)) (r : ℚ) :
    l.foldl (trainingScoreStep m) r
      = r + (l.map (fun kv => m.weight.getD kv.1 0 * kv.2)).sum := by
  induction l generalizing r with
  | nil => simp
  | cons kv l ih =>
    simp only [List.foldl_cons, List.map_cons, List.sum_cons]
    rw [ih, trainingScoreStep_eq]
    ring

theorem trainingScore_eq (m : Model) (x : GoMap Int ℚ) :
    trainingScore m x = weightedSum m.weight x := by
  unfold trainingScore weightedSum
  rw [trainingScore_fold, zero_add]

theorem predictStep_eq (m : Model) (hc : m.count ≠ 0) (r : ℚ) (kv : (_ : Int) × ℚ) :
    predictStep m (some r) kv
      = some (r + m.weight.getD kv.1 0 * kv.2
          - (1 / (m.count : ℚ)) * (m.cumWeight.getD kv.1 0 * kv.2)) := by
  have hq : (m.count : ℚ) ≠ 0 := Int.cast_ne_zero.2 hc
  unfold predictStep GoMap.getD fdiv
  cases m.weight.get kv.1 <;> cases m.cumWeight.get kv.1 <;>
    simp [hq, div_eq_mul_inv, mul_comm]

theorem predictScore_fold (m : Model) (hc : m.count ≠ 0)
    (l : List ((_ : Int) × ℚ)) (r : ℚ) :
    l.foldl (predictStep m) (some r)
      = some (r + (l.map (fun kv => m.weight.getD kv.1 0 * kv.2)).sum
          - (1 / (m.count : ℚ))
            * (l.map (fun kv => m.cumWeight.getD kv.1 0 * kv.2)).sum) := by
  induction l generalizing r with
  | nil => simp
  | cons kv l ih =>
    simp only [List.foldl_cons, List.map_cons, List.sum_cons]
    rw [predictStep_eq m hc, ih]
    congr 1
    ring

theorem predictScore_eq (m : Model) (hc : m.count ≠ 0) (x : GoMap Int ℚ) :
    predictScore m x
      = some (weightedSum m.weight x - (1 / (m.count : ℚ)) * weightedSum m.cumWeight x) := by
  unfold predictScore weightedSum
  rw [predictScore_fold m hc, zero_add]

/-- C3. With a non-zero counter, `Predict` returns +1 when the weighted sum of
the features under `weight` minus `1/count` times their weighted sum under
`cumWeight` is strictly positive, and -1 otherwise; an entry absent from either
map counts as 0, independently of the other map. -/
theorem C3_predict_averaged_score (m : Model) (x : GoMap Int ℚ) (h : m.count ≠ 0) :
    Predict m x
      = some (if weightedSum m.weight x
                  - (1 / (m.count : ℚ)) * weightedSum m.cumWeight x > 0
              then 1 else -1) := by
  unfold Predict
  rw [predictScore_eq m h]

/-- C4. The training prediction is +1 when the weighted sum of the features
under `weight` (absent weight counting as 0) is strictly positive and -1
otherwise, a sum of exactly 0 giving -1; two models with the same `weight`
give the same training prediction, whatever their `cumWeight` and `count`. -/
theorem C4_predictForTraining_raw_score (m : Model) (x : GoMap Int ℚ) :
    predictForTraining m x = (if weightedSum m.weight x > 0 then 1 else -1) ∧
    (weightedSum m.weight x = 0 → predictForTraining m x = -1) ∧
    (∀ (cumWeight1 : GoMap Int ℚ) (count1 : Int),
      predictForTraining { weight := m.weight, cumWeight := cumWeight1, count := count1 } x
        = predictForTraining m x) := by
  refine ⟨?_, ?_, ?_⟩
  · unfold predictForTraining
    rw [trainingScore_eq]
  · intro h0
    unfold predictForTraining
    rw [trainingScore_eq, h0]
    simp
  · intro c1 n1
    unfold predictForTraining
    rw [trainingScore_eq, trainingScore_eq]

theorem weightedSum_empty (x : GoMap Int ℚ) : weightedSum ∅ x = 0 := by
  unfold weightedSum
  have : ∀ l : List ((_ : Int) × ℚ),
      (l.map (fun kv => GoMap.getD (∅ : GoMap Int ℚ) kv.1 0 * kv.2)).sum = 0 := by
    intro l
    induction l with
    | nil => rfl
    | cons kv l ih =>
      simp only [List.map_cons, List.sum_cons, ih]
      simp [GoMap.getD, GoMap.get]
  exact this _

theorem predictStep_empty (count : Int) (r : ℚ) (kv : (_ : Int) × ℚ) :
    predictStep { weight := ∅, cumWeight := ∅, count := count } (some r) kv = some r := by
  simp [predictStep, GoMap.get]

theorem predictScore_empty (count : Int) (x : GoMap Int ℚ) :
    predictScore { weight := ∅, cumWeight := ∅, count := count } x = some 0 := by
  unfold predictScore
  generalize x.entries = l
  induction l with
  | nil => rfl
  | cons kv l ih => rw [List.foldl_cons, predictStep_empty, ih]

theorem predictForTraining_empty (count : Int) (x : GoMap Int ℚ) :
    predictForTraining { weight := ∅, cumWeight := ∅, count := count } x = -1 := by
  unfold predictForTraining
  rw [trainingScore_eq, weightedSum_empty]
  simp

/-- C5. Cold start: for a model whose `weight` and `cumWeight` are both empty,
whatever its counter, `predictForTraining` and `Predict` return -1 on every
feature map, the empty one included. -/
theorem C5_cold_start (count : Int) (x : GoMap Int ℚ) :
    predictForTraining { weight := ∅, cumWeight := ∅, count := count } x = -1 ∧
    Predict { weight := ∅, cumWeight := ∅, count := count } x = some (-1) := by
  constructor
  · exact predictForTraining_empty count x
  · unfold Predict
    rw [predictScore_empty]
    simp

theorem GoMap.get_eq_none_iff {κ ν : Type} [DecidableEq κ] (x : GoMap κ ν) (k : κ) :
    x.get k = none ↔ k ∉ x.entries.keys :=
  AList.lookup_eq_none

theorem GoMap.get_empty {κ ν : Type} [DecidableEq κ] (k : κ) :
    (∅ : GoMap κ ν).get k = none :=
  AList.lookup_empty k

theorem learn_cold_get (x : GoMap Int ℚ) (k : Int) :
    (Learn initialModel { label := 1, features := x }).weight.get k = x.get k ∧
    (Learn initialModel { label := 1, features := x }).cumWeight.get k = x.get k := by
  have hp : predictForTraining initialModel x ≠ (1 : Int) := by
    rw [show initialModel = { weight := ∅, cumWeight := ∅, count := 1 } from rfl,
      predictForTraining_empty 1 x]
    decide
  rw [Learn_of_mistake initialModel { label := 1, features := x } hp]
  cases hx : x.get k with
  | none =>
    have hk := (GoMap.get_eq_none_iff x k).1 hx
    exact ⟨(learnStep_fold_weight_of_not_mem 1 k _ initialModel hk).trans (GoMap.get_empty k),
      (learnStep_fold_cumWeight_of_not_mem 1 k _ initialModel hk).trans (GoMap.get_empty k)⟩
  | some v =>
    have hk := (GoMap.get_iff_mem x k v).1 hx
    constructor
    · show (x.entries.foldl (learnStep 1) initialModel).weight.get k = some v
      rw [learnStep_fold_weight_of_mem 1 k v _ initialModel x.nodupKeys hk]
      simp [GoMap.getD, GoMap.get, initialModel]
    · show (x.entries.foldl (learnStep 1) initialModel).cumWeight.get k = some v
      rw [learnStep_fold_cumWeight_of_mem 1 k v _ initialModel x.nodupKeys hk]
      simp [GoMap.getD, GoMap.get, initialModel]

theorem learn_cold_count (x : GoMap Int ℚ) :
    (Learn initialModel { label := 1, features := x }).count = 2 := by
  have hp : predictForTraining initialModel x ≠ (1 : Int) := by
    rw [show initialModel = { weight := ∅, cumWeight := ∅, count := 1 } from rfl,
      predictForTraining_empty 1 x]
    decide
  rw [Learn_of_mistake initialModel { label := 1, features := x } hp]
  rfl

theorem singleFeature_get (f : Int) (v : ℚ) : (singleFeature f v).get f = some v :=
  AList.lookup_insert _

/-- C6. From the initial model (empty `weight`, empty `cumWeight`, `count = 1`),
one `Learn` call on an instance with label +1 and feature map `x` yields
`weight` and `cumWeight` maps with exactly the keys and values of `x` and
`count = 2`; for the single feature `f ↦ 2` this gives `weight[f] = 2`,
`cumWeight[f] = 2` and `count = 2`. -/
theorem C6_single_mistake_from_cold (x : GoMap Int ℚ) (f : Int) :
    (∀ k, (Learn initialModel { label := 1, features := x }).weight.get k = x.get k) ∧
    (∀ k, (Learn initialModel { label := 1, features := x }).cumWeight.get k = x.get k) ∧
    (Learn initialModel { label := 1, features := x }).count = 2 ∧
    (Learn initialModel { label := 1, features := singleFeature f 2 }).weight.get f = some 2 ∧
    (Learn initialModel { label := 1, features := singleFeature f 2 }).cumWeight.get f
      = some 2 ∧
    (Learn initialModel { label := 1, features := singleFeature f 2 }).count = 2 := by
  refine ⟨fun k => (learn_cold_get x k).1, fun k => (learn_cold_get x k).2,
    learn_cold_count x, ?_, ?_, learn_cold_count _⟩
  · rw [(learn_cold_get _ f).1, singleFeature_get]
  · rw [(learn_cold_get _ f).2, singleFeature_get]

/-! ## Accuracy -/

theorem accuracyLoop_eq (predict : List Int) (rest : List Int) (i : Nat) (sum : ℚ) :
    accuracyLoop predict rest i sum
      = sum + (((List.range rest.length).countP
          (fun j => rest[j]? = predict[i + j]?) : Nat) : ℚ) := by
  induction rest generalizing i sum with
  | nil => simp [accuracyLoop]
  | cons v rest ih =>
    have hshift : (List.range rest.length).countP
          ((fun j => decide ((v :: rest)[j]? = predict[i + j]?)) ∘ Nat.succ)
        = (List.range rest.length).countP (fun j => rest[j]? = predict[i + 1 + j]?) := by
      apply List.countP_congr
      intro j _
      simp [Nat.succ_eq_add_one, Nat.add_assoc, Nat.add_comm 1 j]
    rw [accuracyLoop, ih, List.length_cons, List.range_succ_eq_map, List.countP_cons,
      List.countP_map, hshift]
    by_cases h : some v = predict[i]?
    · simp [h]; ring
    · simp [h]

/-- C7. `GetAccuracy` returns 0 when the two sequences differ in length, and
otherwise the number of positions at which they agree divided by the length of
`gold`. -/
theorem C7_getAccuracy_definition (gold predict : List Int) :
    GetAccuracy gold predict
      = if gold.length ≠ predict.length then some 0
        else fdiv (agreeCount gold predict : ℚ) (gold.length : ℚ) := by
  unfold GetAccuracy agreeCount
  rw [accuracyLoop_eq]
  simp

theorem agreeCount_le (gold predict : List Int) : agreeCount gold predict ≤ gold.length := by
  unfold agreeCount
  exact (List.countP_le_length _).trans_eq (List.length_range _)

/-- For two non-empty sequences of equal length `GetAccuracy` is a rational
number between 0 and 1; for sequences of different lengths it is 0. -/
theorem GetAccuracy_bounds (gold predict : List Int) :
    (gold.length ≠ predict.length → GetAccuracy gold predict = some 0) ∧
    (gold.length = predict.length → gold ≠ [] →
      ∃ q : ℚ, GetAccuracy gold predict = some q ∧ 0 ≤ q ∧ q ≤ 1) := by
  constructor
  · intro h
    unfold GetAccuracy
    rw [if_pos h]
  · intro h hne
    have hpos : (0 : ℚ) < (gold.length : ℚ) :=
      Nat.cast_pos.2 (List.length_pos.2 hne)
    refine ⟨(agreeCount gold predict : ℚ) / (gold.length : ℚ), ?_, ?_, ?_⟩
    · unfold GetAccuracy agreeCount
      rw [accuracyLoop_eq, if_neg (not_not.2 h)]
      unfold fdiv
      rw [if_neg (ne_of_gt hpos), zero_add]
      simp
    · exact div_nonneg (Nat.cast_nonneg _) (le_of_lt hpos)
    · rw [div_le_one hpos]
      exact_mod_cast agreeCount_le gold predict

/-- C8. On two empty sequences `GetAccuracy` divides 0 by 0: the result is
not a number of the interval [0,1]. -/
theorem C8_getAccuracy_empty : GetAccuracy [] [] = none := by
  decide

/-! ## Concrete runs -/

theorem GoMap.get_set_self {κ ν : Type} [DecidableEq κ] (m : GoMap κ ν) (k : κ) (v : ν) :
    (m.set k v).get k = some v :=
  AList.lookup_insert _

theorem GoMap.get_set_ne {κ ν : Type} [DecidableEq κ] (m : GoMap κ ν) (k j : κ) (v : ν)
    (h : j ≠ k) : (m.set k v).get j = m.get j :=
  AList.lookup_insert_ne h

theorem weightedSum_singleFeature (w : GoMap Int ℚ) (f : Int) (v : ℚ) :
    weightedSum w (singleFeature f v) = w.getD f 0 * v := by
  have he : (singleFeature f v).entries = [⟨f, v⟩] := rfl
  unfold weightedSum
  rw [he]
  simp

theorem sampleModel_training : predictForTraining sampleModel (singleFeature 0 2) = 1 := by
  rw [predictForTraining, trainingScore_eq]
  simp [weightedSum_singleFeature, sampleModel, GoMap.getD, GoMap.get_set_self]

theorem C1_learn_on_mistake_witness :
    predictForTraining sampleModel (singleFeature 0 2) ≠ -1 ∧
    (Learn sampleModel { label := -1, features := singleFeature 0 2 }).weight.get 0
      = some (-1) ∧
    (Learn sampleModel { label := -1, features := singleFeature 0 2 }).cumWeight.get 0
      = some (-5) ∧
    (Learn sampleModel { label := -1, features := singleFeature 0 2 }).count = 5 := by
  have hp : predictForTraining sampleModel (singleFeature 0 2) ≠ -1 := by
    rw [sampleModel_training]; decide
  have h := C1_learn_on_mistake sampleModel { label := -1, features := singleFeature 0 2 } hp
  have h0 := h.1 0 2 (singleFeature_get 0 2)
  refine ⟨hp, ?_, ?_, h.2⟩
  · rw [h0.1]
    norm_num [sampleModel, GoMap.getD, GoMap.get_set_self]
  · rw [h0.2]
    norm_num [sampleModel, GoMap.getD, GoMap.get_set_self]

theorem C2_learn_no_mistake_witness :
    predictForTraining sampleModel (singleFeature 0 2) = 1 ∧
    Learn sampleModel { label := 1, features := singleFeature 0 2 } = sampleModel :=
  ⟨sampleModel_training,
    C2_learn_no_mistake sampleModel { label := 1, features := singleFeature 0 2 }
      sampleModel_training⟩

theorem C3_predict_averaged_score_witness :
    sampleModel.count ≠ 0 ∧ Predict sampleModel (singleFeature 0 2) = some 1 := by
  have hc : sampleModel.count ≠ 0 := by decide
  refine ⟨hc, ?_⟩
  rw [C3_predict_averaged_score sampleModel (singleFeature 0 2) hc]
  norm_num [weightedSum_singleFeature, sampleModel, GoMap.getD, GoMap.get_set_self]

/-! ## The line parser -/

/-- A line with fewer than two tokens, or whose first token `ParseInt` refuses,
ends in an error and leaves the vocabulary as it was. -/
theorem ParseLine_error_of_label (parseFloat : GoString → Option ℚ) (str2id : Vocabulary)
    (line : GoString)
    (h : (Split (TrimSpace line) ' ').length < 2
        ∨ ParseInt ((Split (TrimSpace line) ' ').headD []) 32 = none) :
    ParseLine parseFloat str2id line = (str2id, Outcome.error) := by
  unfold ParseLine
  simp only
  by_cases hlen : (Split (TrimSpace line) ' ').length < 2
  · rw [if_pos hlen]
  · rw [if_neg hlen]
    rcases h with h | h
    · exact absurd h hlen
    · rw [h]

/-- C9. `ParseLine` does not turn every malformed line into an error: on the
line `1 a`, whose feature token holds no `:`, and on the line `1 a:1  b:2`,
whose two consecutive spaces give an empty token, the index `tmp[1]` is out of
range and the call panics. -/
theorem C9_parseLine_panics :
    (∀ (parseFloat : GoString → Option ℚ) (str2id : Vocabulary),
      ParseLine parseFloat str2id "1 a".toList = (str2id, Outcome.panic)) ∧
    (ParseLine integerParseFloat ∅ "1 a:1  b:2".toList).2 = Outcome.panic := by
  constructor
  · intro parseFloat str2id
    rfl
  · decide

/-! ## The vocabulary -/

theorem Vocabulary.wellFormed_empty : Vocabulary.WellFormed ∅ := by
  constructor
  · intro e he
    simp at he
  · simp

theorem GetId_of_get_some (v : Vocabulary) (s : GoString) (id : Int)
    (h : v.get s = some id) : GetId v s = (id, v) := by
  unfold GetId
  rw [h]

theorem GetId_of_get_none (v : Vocabulary) (s : GoString) (h : v.get s = none) :
    GetId v s = ((v.entries.length : Int), v.set s (v.entries.length : Int)) := by
  unfold GetId
  rw [h]

theorem GetId_get_self (v : Vocabulary) (s : GoString) :
    (GetId v s).2.get s = some (GetId v s).1 := by
  cases h : v.get s with
  | none =>
    rw [GetId_of_get_none v s h]
    exact GoMap.get_set_self _ _ _
  | some id =>
    rw [GetId_of_get_some v s id h]
    exact h

theorem GetId_get_of_get (v : Vocabulary) (s t : GoString) (id : Int)
    (ht : v.get t = some id) : (GetId v s).2.get t = some id := by
  cases h : v.get s with
  | none =>
    rw [GetId_of_get_none v s h]
    have hne : t ≠ s := by
      intro e
      rw [e, h] at ht
      exact Option.noConfusion ht
    rw [GoMap.get_set_ne _ _ _ _ hne]
    exact ht
  | some id0 =>
    rw [GetId_of_get_some v s id0 h]
    exact ht

theorem GetId_wellFormed (v : Vocabulary) (s : GoString) (hv : v.WellFormed) :
    (GetId v s).2.WellFormed := by
  cases h : v.get s with
  | some id0 =>
    rw [GetId_of_get_some v s id0 h]
    exact hv
  | none =>
    rw [GetId_of_get_none v s h]
    have hk : s ∉ v := AList.lookup_eq_none.1 h
    have he : (v.set s (v.entries.length : Int)).entries
        = ⟨s, (v.entries.length : Int)⟩ :: v.entries :=
      AList.insert_entries_of_neg hk
    unfold Vocabulary.WellFormed
    rw [he]
    constructor
    · intro e hmem
      rw [List.length_cons]
      push_cast
      rcases List.mem_cons.1 hmem with h1 | h1
      · rw [h1]
        show (v.entries.length : Int) < (v.entries.length : Int) + 1
        omega
      · have := hv.1 e h1
        omega
    · rw [List.map_cons, List.nodup_cons]
      refine ⟨?_, hv.2⟩
      intro hmem
      rcases List.mem_map.1 hmem with ⟨e, he1, he2⟩
      have := hv.1 e he1
      simp only at he2
      omega

theorem Vocabulary.WellFormed.injective {v : Vocabulary} (hv : v.WellFormed)
    {s t : GoString} {id : Int} (hs : v.get s = some id) (ht : v.get t = some id) :
    s = t := by
  have h1 := (GoMap.get_iff_mem v s id).1 hs
  have h2 := (GoMap.get_iff_mem v t id).1 ht
  have := List.inj_on_of_nodup_map hv.2 h1 h2 rfl
  exact congrArg Sigma.fst this

theorem registerAll_wellFormed (names : List GoString) (v : Vocabulary)
    (hv : v.WellFormed) : (registerAll v names).WellFormed := by
  induction names generalizing v with
  | nil => exact hv
  | cons n names ih => exact ih _ (GetId_wellFormed v n hv)

theorem registerAll_append (v : Vocabulary) (names : List GoString) (n : GoString) :
    registerAll v (names ++ [n]) = (GetId (registerAll v names) n).2 := by
  unfold registerAll
  rw [List.foldl_append]
  rfl

/-! ## The loop over the feature tokens -/

theorem Split_featureToken (t : Feature) (h1 : ':' ∉ t.1) (h2 : ':' ∉ t.2.1) :
    Split (featureToken t) ':' = [t.1, t.2.1] := by
  have h : ([':'].intercalate [t.1, t.2.1]).splitOn ':' = [t.1, t.2.1] :=
    List.splitOn_intercalate [t.1, t.2.1] ':'
      (by
        intro l hl
        rcases List.mem_cons.1 hl with e | hl
        · rw [e]; exact h1
        · rw [List.mem_singleton.1 hl]; exact h2)
      (by simp)
  have e : [':'].intercalate [t.1, t.2.1] = featureToken t := by
    simp [List.intercalate, featureToken]
  rw [e] at h
  exact h

theorem parseFeatures_eq (parseFloat : GoString → Option ℚ) (feats : List Feature)
    (features : GoMap Int ℚ) (v : Vocabulary)
    (h : ∀ t ∈ feats, ':' ∉ t.1 ∧ ':' ∉ t.2.1 ∧ parseFloat t.2.1 = some t.2.2) :
    parseFeatures parseFloat (feats.map featureToken) features v
      = ((featuresAfter feats features v).2, Outcome.ok (featuresAfter feats features v).1) := by
  induction feats generalizing features v with
  | nil => rfl
  | cons t feats ih =>
    have ht := h t (List.mem_cons_self _ _)
    rw [List.map_cons, parseFeatures]
    simp only [Split_featureToken t ht.1 ht.2.1, List.getElem?_cons_succ,
      List.getElem?_cons_zero, List.headD_cons, ht.2.2]
    rw [ih _ _ (fun u hu => h u (List.mem_cons_of_mem _ hu))]
    rfl

theorem featuresAfter_append (feats : List Feature) (t : Feature)
    (features : GoMap Int ℚ) (v : Vocabulary) :
    featuresAfter (feats ++ [t]) features v
      = (((featuresAfter feats features v).1.set
            (GetId (featuresAfter feats features v).2 t.1).1 t.2.2),
          (GetId (featuresAfter feats features v).2 t.1).2) := by
  unfold featuresAfter
  rw [List.foldl_append]
  rfl

theorem lastValue_append (feats : List Feature) (t : Feature) (name : GoString) :
    lastValue (feats ++ [t]) name
      = if t.1 = name then some t.2.2 else lastValue feats name := by
  unfold lastValue
  rw [List.reverse_append, List.reverse_singleton, List.singleton_append, List.find?_cons]
  by_cases h : t.1 = name
  · simp [h]
  · simp [h]

theorem featuresAfter_spec (feats : List Feature) (v : Vocabulary) (hv : v.WellFormed) :
    (featuresAfter feats ∅ v).2 = registerAll v (feats.map (fun t => t.1)) ∧
    (∀ t ∈ feats, ∃ id, (featuresAfter feats ∅ v).2.get t.1 = some id ∧
      (featuresAfter feats ∅ v).1.get id = lastValue feats t.1) ∧
    (∀ k q, (featuresAfter feats ∅ v).1.get k = some q →
      ∃ t ∈ feats, (featuresAfter feats ∅ v).2.get t.1 = some k) := by
  induction feats using List.reverseRecOn with
  | nil =>
    refine ⟨rfl, ?_, ?_⟩
    · intro t ht
      simp at ht
    · intro k q hq
      have : (∅ : GoMap Int ℚ).get k = some q := hq
      rw [GoMap.get_empty] at this
      exact Option.noConfusion this
  | append_singleton feats t ih =>
    obtain ⟨ih1, ih2, ih3⟩ := ih
    have hwf : (featuresAfter feats ∅ v).2.WellFormed := by
      rw [ih1]
      exact registerAll_wellFormed _ v hv
    have hwf1 := GetId_wellFormed (featuresAfter feats ∅ v).2 t.1 hwf
    have hself := GetId_get_self (featuresAfter feats ∅ v).2 t.1
    rw [featuresAfter_append]
    refine ⟨?_, ?_, ?_⟩
    · show (GetId (featuresAfter feats ∅ v).2 t.1).2 = _
      rw [List.map_append, List.map_singleton, registerAll_append, ih1]
    · intro u hu
      rw [lastValue_append]
      by_cases hname : t.1 = u.1
      · rw [if_pos hname]
        refine ⟨(GetId (featuresAfter feats ∅ v).2 t.1).1, ?_, ?_⟩
        · rw [← hname]
          exact hself
        · exact GoMap.get_set_self _ _ _
      · rw [if_neg hname]
        have hu1 : u ∈ feats := by
          rcases List.mem_append.1 hu with h | h
          · exact h
          · rw [List.mem_singleton.1 h] at hname
            exact absurd rfl hname
        obtain ⟨id, hid1, hid2⟩ := ih2 u hu1
        have hid3 := GetId_get_of_get (featuresAfter feats ∅ v).2 t.1 u.1 id hid1
        refine ⟨id, hid3, ?_⟩
        have hne : id ≠ (GetId (featuresAfter feats ∅ v).2 t.1).1 := by
          intro e
          rw [e] at hid3
          exact hname (hwf1.injective hself hid3)
        show GoMap.get (GoMap.set _ _ _) id = _
        rw [GoMap.get_set_ne _ _ _ _ hne]
        exact hid2
    · intro k q hq
      by_cases hk : k = (GetId (featuresAfter feats ∅ v).2 t.1).1
      · refine ⟨t, List.mem_append_right _ (List.mem_singleton_self t), ?_⟩
        rw [hk]
        exact hself
      · have hq1 : (featuresAfter feats ∅ v).1.get k = some q := by
          have : GoMap.get (GoMap.set (featuresAfter feats ∅ v).1
              (GetId (featuresAfter feats ∅ v).2 t.1).1 t.2.2) k = some q := hq
          rw [GoMap.get_set_ne _ _ _ _ hk] at this
          exact this
        obtain ⟨u, hu, hu1⟩ := ih3 k q hq1
        exact ⟨u, List.mem_append_left _ hu,
          GetId_get_of_get (featuresAfter feats ∅ v).2 t.1 u.1 k hu1⟩

/-! ## Trimming and splitting a line -/

theorem intercalate_cons_cons (sep : GoString) (t u : GoString) (ts : List GoString) :
    sep.intercalate (t :: u :: ts) = t ++ sep ++ sep.intercalate (u :: ts) := by
  simp [List.intercalate]

theorem intercalate_singleton (sep : GoString) (t : GoString) :
    sep.intercalate [t] = t := by
  simp [List.intercalate]

theorem intercalate_head (sep : GoString) (c : Char) (cs : GoString) (ts : List GoString) :
    ∃ rest, sep.intercalate ((c :: cs) :: ts) = c :: rest := by
  cases ts with
  | nil => exact ⟨cs, by rw [intercalate_singleton]⟩
  | cons u us =>
    exact ⟨cs ++ sep ++ sep.intercalate (u :: us), by
      rw [intercalate_cons_cons]; simp⟩

theorem intercalate_getLast? (sep : GoString) (ts : List GoString) (t : GoString) (b : Char)
    (h1 : ts.getLast? = some t) (h2 : t.getLast? = some b) :
    (sep.intercalate ts).getLast? = some b := by
  induction ts with
  | nil => simp at h1
  | cons u us ih =>
    cases us with
    | nil =>
      rw [intercalate_singleton]
      simp only [List.getLast?_singleton, Option.some.injEq] at h1
      rw [h1]
      exact h2
    | cons w ws =>
      rw [List.getLast?_cons_cons] at h1
      rw [intercalate_cons_cons, List.getLast?_append, ih h1]
      rfl

theorem TrimSpace_intercalate (pre post : GoString) (ts : List GoString)
    (hpre : ∀ c ∈ pre, isSpace c = true) (hpost : ∀ c ∈ post, isSpace c = true)
    (hne : ts ≠ []) (hts : ∀ t ∈ ts, t ≠ [] ∧ ∀ c ∈ t, isSpace c = false) :
    TrimSpace (pre ++ [' '].intercalate ts ++ post) = [' '].intercalate ts := by
  obtain ⟨t0, ts0, rfl⟩ := List.exists_cons_of_ne_nil hne
  obtain ⟨c0, cs0, hc0⟩ := List.exists_cons_of_ne_nil (hts t0 (List.mem_cons_self _ _)).1
  have hc0s : isSpace c0 = false :=
    (hts t0 (List.mem_cons_self _ _)).2 c0 (by rw [hc0]; exact List.mem_cons_self _ _)
  obtain ⟨rest, hrest⟩ := intercalate_head [' '] c0 cs0 ts0
  rw [← hc0] at hrest
  -- the last character of the line is the last character of its last token
  obtain ⟨tl, htl⟩ : ∃ tl, (t0 :: ts0).getLast? = some tl := by
    cases h : (t0 :: ts0).getLast? with
    | none => simp at h
    | some tl => exact ⟨tl, rfl⟩
  have htlmem : tl ∈ t0 :: ts0 := List.mem_of_getLast?_eq_some htl
  obtain ⟨b, hb⟩ : ∃ b, tl.getLast? = some b := by
    cases h : tl.getLast? with
    | none => exact absurd (List.getLast?_eq_none_iff.1 h) (hts tl htlmem).1
    | some b => exact ⟨b, rfl⟩
  have hbs : isSpace b = false := (hts tl htlmem).2 b (List.mem_of_getLast?_eq_some hb)
  have hlast := intercalate_getLast? [' '] (t0 :: ts0) tl b htl hb
  generalize [' '].intercalate (t0 :: ts0) = core at hrest hlast
  unfold TrimSpace
  rw [List.append_assoc, List.dropWhile_append_of_pos hpre, hrest, List.cons_append,
    List.dropWhile_cons_of_neg (by rw [hc0s]; exact Bool.false_ne_true), ← List.cons_append,
    ← hrest]
  clear hrest hpre
  induction post using List.reverseRecOn with
  | nil =>
    rw [List.append_nil, List.rdropWhile_eq_self_iff]
    intro hl
    have : core.getLast? = some (core.getLast hl) := List.getLast?_eq_getLast _ hl
    rw [hlast] at this
    rw [← Option.some.inj this, hbs]
    exact Bool.false_ne_true
  | append_singleton p x ih =>
    rw [← List.append_assoc, List.rdropWhile_concat_pos _ _ _
      (hpost x (List.mem_append_right _ (List.mem_singleton_self x)))]
    exact ih (fun c hc => hpost c (List.mem_append_left _ hc))

theorem isSpace_space : isSpace ' ' = true := by decide

theorem isSpace_of_digitValue (c : Char) (d : Nat) (h : digitValue c = some d) :
    isSpace c = false := by
  unfold digitValue at h
  have h0 : '0'.toNat = 48 := rfl
  have h9 : '9'.toNat = 57 := rfl
  rw [h0, h9] at h
  by_cases hr : 48 ≤ c.toNat ∧ c.toNat ≤ 57
  · have hne : c ≠ ' ' := by
      intro e
      rw [e] at hr
      have : ' '.toNat = 32 := rfl
      omega
    unfold isSpace
    simp only [hne, decide_False, Bool.false_or, Bool.or_eq_false_iff, Bool.and_eq_false_iff,
      decide_eq_false_iff_not]
    omega
  · rw [if_neg hr] at h
    exact Option.noConfusion h

theorem parseDigits_isSpace (s : GoString) (acc n : Nat) (h : parseDigits s acc = some n) :
    ∀ c ∈ s, isSpace c = false := by
  induction s generalizing acc with
  | nil => intro c hc; simp at hc
  | cons a s ih =>
    unfold parseDigits at h
    cases hd : digitValue a with
    | none => rw [hd] at h; exact Option.noConfusion h
    | some d =>
      rw [hd] at h
      intro c hc
      rcases List.mem_cons.1 hc with e | hc
      · rw [e]; exact isSpace_of_digitValue a d hd
      · exact ih _ h c hc

theorem ParseInt_isSpace (s : GoString) (bitSize : Nat) (n : Int)
    (h : ParseInt s bitSize = some n) : s ≠ [] ∧ ∀ c ∈ s, isSpace c = false := by
  cases s with
  | nil => exact Option.noConfusion h
  | cons c cs =>
    refine ⟨List.cons_ne_nil _ _, ?_⟩
    unfold ParseInt at h
    simp only at h
    by_cases hs : c = '+' ∨ c = '-'
    · rw [if_pos hs] at h
      cases hd : parseDigits cs 0 with
      | none =>
        rw [hd] at h
        split at h <;> exact Option.noConfusion h
      | some un =>
        intro a ha
        rcases List.mem_cons.1 ha with e | ha
        · rw [e]
          rcases hs with hs | hs <;> rw [hs] <;> decide
        · exact parseDigits_isSpace cs 0 un hd a ha
    · rw [if_neg hs] at h
      cases hd : parseDigits (c :: cs) 0 with
      | none =>
        rw [hd] at h
        split at h <;> exact Option.noConfusion h
      | some un => exact parseDigits_isSpace (c :: cs) 0 un hd

theorem digitValue_not_sign (c : Char) (d : Nat) (h : digitValue c = some d) :
    ¬ (c = '+' ∨ c = '-') := by
  intro hs
  have h1 : digitValue '+' = none := by decide
  have h2 : digitValue '-' = none := by decide
  rcases hs with hs | hs
  · rw [hs, h1] at h; exact Option.noConfusion h
  · rw [hs, h2] at h; exact Option.noConfusion h

/-- What `ParseInt` at bit size 32 accepts: a non-empty string of decimal
digits of value `n`, alone or after `+`, gives `n` when `n < 2^31` and is
refused otherwise; after `-` it gives `-n` when `n ≤ 2^31`. -/
theorem ParseInt_of_digits (ds : GoString) (n : Nat) (hne : ds ≠ [])
    (h : parseDigits ds 0 = some n) :
    (n < 2 ^ 31 → ParseInt ds 32 = some (n : Int)) ∧
    (n < 2 ^ 31 → ParseInt ('+' :: ds) 32 = some (n : Int)) ∧
    (n ≤ 2 ^ 31 → ParseInt ('-' :: ds) 32 = some (-(n : Int))) ∧
    (2 ^ 31 ≤ n → ParseInt ds 32 = none) := by
  obtain ⟨c, cs, rfl⟩ := List.exists_cons_of_ne_nil hne
  have hsign : ¬ (c = '+' ∨ c = '-') := by
    unfold parseDigits at h
    cases hd : digitValue c with
    | none => rw [hd] at h; exact Option.noConfusion h
    | some d => exact digitValue_not_sign c d hd
  have hminus : ¬ c = '-' := fun e => hsign (Or.inr e)
  have hplus : ¬ c = '+' := fun e => hsign (Or.inl e)
  have hpow : (2 : Nat) ^ 31 = 2147483648 := by norm_num
  rw [hpow]
  refine ⟨?_, ?_, ?_, ?_⟩
  · intro hn
    simp only [ParseInt, hplus, hminus, or_self, if_false, h]
    simp
    omega
  · intro hn
    simp only [ParseInt, true_or, if_true, h]
    simp
    omega
  · intro hn
    simp only [ParseInt, or_true, if_true, h]
    simp
    omega
  · intro hn
    simp only [ParseInt, hplus, hminus, or_self, if_false, h]
    simp
    omega

theorem featureToken_isSpace (t : Feature) (h1 : ∀ c ∈ t.1, isSpace c = false)
    (h2 : ∀ c ∈ t.2.1, isSpace c = false) :
    featureToken t ≠ [] ∧ ∀ c ∈ featureToken t, isSpace c = false := by
  unfold featureToken
  refine ⟨by simp, ?_⟩
  intro c hc
  rcases List.mem_append.1 hc with h | h
  · exact h1 c h
  · rcases List.mem_cons.1 h with e | h
    · rw [e]; decide
    · exact h2 c h

/-- C10 (amended). Take a line made, between optional leading and trailing
white space, of a label token that `strconv.ParseInt(·, 10, 32)` accepts (a
decimal integer of the int32 range) followed by one or more tokens
`name:value`, consecutive tokens being separated by exactly one space, where
no name and no value token holds `:` or white space and every value token
parses as a number.  On a vocabulary built by `GetId`, `ParseLine` succeeds:
the names are registered from left to right, the label is that integer, and
the features map sends the id of each name to the last value given for that
name and has no other key. -/
theorem C10_parseLine_accepts (parseFloat : GoString → Option ℚ) (str2id : Vocabulary)
    (pre post labelToken : GoString) (label : Int) (feats : List Feature)
    (hv : str2id.WellFormed)
    (hpre : ∀ c ∈ pre, isSpace c = true) (hpost : ∀ c ∈ post, isSpace c = true)
    (hlabel : ParseInt labelToken 32 = some label)
    (hfeats : feats ≠ [])
    (hname : ∀ t ∈ feats, ':' ∉ t.1 ∧ ∀ c ∈ t.1, isSpace c = false)
    (hvalue : ∀ t ∈ feats,
      parseFloat t.2.1 = some t.2.2 ∧ ':' ∉ t.2.1 ∧ ∀ c ∈ t.2.1, isSpace c = false) :
    ∃ features : GoMap Int ℚ,
      ParseLine parseFloat str2id
          (pre ++ [' '].intercalate (labelToken :: feats.map featureToken) ++ post)
        = (registerAll str2id (feats.map (fun t => t.1)),
            Outcome.ok { label := label, features := features }) ∧
      (∀ t ∈ feats,
        features.get (GetId (registerAll str2id (feats.map (fun t => t.1))) t.1).1
          = lastValue feats t.1) ∧
      (∀ k q, features.get k = some q →
        ∃ t ∈ feats, (GetId (registerAll str2id (feats.map (fun t => t.1))) t.1).1 = k) := by
  obtain ⟨hreg, hval, hkeys⟩ := featuresAfter_spec feats str2id hv
  have htoks : ∀ t ∈ labelToken :: feats.map featureToken,
      t ≠ [] ∧ ∀ c ∈ t, isSpace c = false := by
    intro t ht
    rcases List.mem_cons.1 ht with e | ht
    · rw [e]; exact ParseInt_isSpace labelToken 32 label hlabel
    · obtain ⟨u, hu, rfl⟩ := List.mem_map.1 ht
      exact featureToken_isSpace u (hname u hu).2 (hvalue u hu).2.2
  have htrim := TrimSpace_intercalate pre post (labelToken :: feats.map featureToken)
    hpre hpost (List.cons_ne_nil _ _) htoks
  have hsplit : Split ([' '].intercalate (labelToken :: feats.map featureToken)) ' '
      = labelToken :: feats.map featureToken := by
    apply List.splitOn_intercalate
    · intro t ht hmem
      have := (htoks t ht).2 ' ' hmem
      rw [isSpace_space] at this
      exact Bool.noConfusion this
    · exact List.cons_ne_nil _ _
  have hlen : ¬ (labelToken :: feats.map featureToken).length < 2 := by
    obtain ⟨t0, ts0, rfl⟩ := List.exists_cons_of_ne_nil hfeats
    simp
  have hloop := parseFeatures_eq parseFloat feats ∅ str2id
    (fun t ht => ⟨(hname t ht).1, (hvalue t ht).2.1, (hvalue t ht).1⟩)
  refine ⟨(featuresAfter feats ∅ str2id).1, ?_, ?_, ?_⟩
  · unfold ParseLine
    simp only [htrim, hsplit, if_neg hlen, List.headD_cons, hlabel, List.tail_cons, hloop, hreg]
  · intro t ht
    obtain ⟨id, h1, h2⟩ := hval t ht
    rw [← hreg, GetId_of_get_some _ _ id h1]
    exact h2
  · intro k q hq
    obtain ⟨t, ht, h1⟩ := hkeys k q hq
    refine ⟨t, ht, ?_⟩
    rw [← hreg, GetId_of_get_some _ _ k h1]

/-- C10, as stated, fails: the label token `2147483648` is an integer and `a:1`
a well-formed feature, yet `ParseLine` returns an error (the label is parsed at
bit size 32); and the tab of `1<tab>a:1` is white space between two tokens, yet
the line is split on single spaces only and is refused. -/
theorem C10_parseLine_rejects_wellformed :
    integerParseFloat "1".toList = some 1 ∧
    (ParseLine integerParseFloat ∅ "2147483648 a:1".toList).2 = Outcome.error ∧
    (ParseLine integerParseFloat ∅ "1\ta:1".toList).2 = Outcome.error := by
  refine ⟨by decide, by decide, by decide⟩

theorem C10_parseLine_accepts_witness :
    ∃ features : GoMap Int ℚ,
      ParseLine integerParseFloat ∅ " -1 a:1 b:2 a:3\t".toList
        = (registerAll ∅ ["a".toList, "b".toList, "a".toList],
            Outcome.ok { label := -1, features := features }) ∧
      (∀ t ∈ [("a".toList, "1".toList, (1 : ℚ)), ("b".toList, "2".toList, (2 : ℚ)),
              ("a".toList, "3".toList, (3 : ℚ))],
        features.get (GetId (registerAll ∅ ["a".toList, "b".toList, "a".toList]) t.1).1
          = lastValue [("a".toList, "1".toList, (1 : ℚ)), ("b".toList, "2".toList, (2 : ℚ)),
              ("a".toList, "3".toList, (3 : ℚ))] t.1) ∧
      (∀ k q, features.get k = some q →
        ∃ t ∈ [("a".toList, "1".toList, (1 : ℚ)), ("b".toList, "2".toList, (2 : ℚ)),
              ("a".toList, "3".toList, (3 : ℚ))],
          (GetId (registerAll ∅ ["a".toList, "b".toList, "a".toList]) t.1).1 = k) :=
  C10_parseLine_accepts integerParseFloat ∅ " ".toList "\t".toList "-1".toList (-1)
    [("a".toList, "1".toList, (1 : ℚ)), ("b".toList, "2".toList, (2 : ℚ)),
      ("a".toList, "3".toList, (3 : ℚ))]
    Vocabulary.wellFormed_empty (by decide) (by decide) (by decide) (by decide) (by decide)
    (by decide)

/-! ## The ids of a sequence of names -/

theorem dedup_length_concat (p : List GoString) (n : GoString) :
    (p ++ [n]).dedup.length = if n ∈ p then p.dedup.length else p.dedup.length + 1 := by
  rw [← List.card_toFinset, ← List.card_toFinset, List.toFinset_append, Finset.union_comm]
  have h1 : [n].toFinset = {n} := by simp
  rw [h1, ← Finset.insert_eq]
  by_cases h : n ∈ p
  · rw [if_pos h, Finset.card_insert_of_mem (List.mem_toFinset.2 h)]
  · rw [if_neg h, Finset.card_insert_of_not_mem (fun hm => h (List.mem_toFinset.1 hm))]

theorem takeWhile_ne_concat_of_mem (p : List GoString) (n s : GoString) (h : s ∈ p) :
    (p ++ [n]).takeWhile (fun t => decide (t ≠ s)) = p.takeWhile (fun t => decide (t ≠ s)) := by
  induction p with
  | nil => simp at h
  | cons a p ih =>
    by_cases ha : a = s
    · simp [List.takeWhile, ha]
    · have hs : s ∈ p := by
        rcases List.mem_cons.1 h with e | e
        · exact absurd e.symm ha
        · exact e
      simp only [List.cons_append, List.takeWhile, ha, ne_eq, not_false_eq_true, decide_True]
      rw [← ih hs]
      simp

theorem takeWhile_ne_concat_of_not_mem (p : List GoString) (n : GoString) (h : n ∉ p) :
    (p ++ [n]).takeWhile (fun t => decide (t ≠ n)) = p := by
  induction p with
  | nil => simp [List.takeWhile]
  | cons a p ih =>
    rw [List.mem_cons, not_or] at h
    have ha : a ≠ n := fun e => h.1 e.symm
    simp only [List.cons_append, List.takeWhile, ha, ne_eq, not_false_eq_true, decide_True]
    exact congrArg (List.cons a) (ih h.2)

theorem firstSeenRank_concat_of_mem (p : List GoString) (n s : GoString) (h : s ∈ p) :
    firstSeenRank (p ++ [n]) s = firstSeenRank p s := by
  unfold firstSeenRank
  rw [takeWhile_ne_concat_of_mem p n s h]

theorem firstSeenRank_concat_of_not_mem (p : List GoString) (n : GoString) (h : n ∉ p) :
    firstSeenRank (p ++ [n]) n = p.dedup.length := by
  unfold firstSeenRank
  rw [takeWhile_ne_concat_of_not_mem p n h]

theorem GetIdAll_snd (v : Vocabulary) (names : List GoString) :
    (GetIdAll v names).2 = registerAll v names := by
  induction names generalizing v with
  | nil => rfl
  | cons n ns ih =>
    show (GetIdAll (GetId v n).2 ns).2 = registerAll (GetId v n).2 ns
    exact ih _

theorem GetIdAll_concat (v : Vocabulary) (p : List GoString) (n : GoString) :
    (GetIdAll v (p ++ [n])).1 = (GetIdAll v p).1 ++ [(GetId (registerAll v p) n).1] := by
  induction p generalizing v with
  | nil => rfl
  | cons a p ih =>
    show (GetId v a).1 :: (GetIdAll (GetId v a).2 (p ++ [n])).1
      = (GetId v a).1 :: (GetIdAll (GetId v a).2 p).1 ++ [(GetId (registerAll (GetId v a).2 p) n).1]
    rw [ih]
    rfl

/-- The vocabulary built from the empty one by a sequence of names: each name
of the sequence is bound to its rank of first appearance, no other name is
bound, and the size is the number of distinct names. -/
theorem registerAll_empty_spec (p : List GoString) :
    (∀ s ∈ p, (registerAll ∅ p).get s = some (firstSeenRank p s : Int)) ∧
    (∀ s, s ∉ p → (registerAll ∅ p).get s = none) ∧
    (registerAll ∅ p).entries.length = p.dedup.length := by
  induction p using List.reverseRecOn with
  | nil =>
    refine ⟨?_, ?_, rfl⟩
    · intro s hs
      simp at hs
    · intro s _
      exact GoMap.get_empty s
  | append_singleton p n ih =>
    obtain ⟨ih1, ih2, ih3⟩ := ih
    rw [registerAll_append, dedup_length_concat]
    by_cases hn : n ∈ p
    · rw [GetId_of_get_some _ n _ (ih1 n hn), if_pos hn]
      refine ⟨?_, ?_, ih3⟩
      · intro s hs
        have hs1 : s ∈ p := by
          rcases List.mem_append.1 hs with h | h
          · exact h
          · rw [List.mem_singleton.1 h]; exact hn
        rw [firstSeenRank_concat_of_mem p n s hs1]
        exact ih1 s hs1
      · intro s hs
        exact ih2 s (fun h => hs (List.mem_append_left _ h))
    · rw [GetId_of_get_none _ n (ih2 n hn), if_neg hn]
      refine ⟨?_, ?_, ?_⟩
      · intro s hs
        by_cases hsn : s = n
        · rw [hsn, firstSeenRank_concat_of_not_mem p n hn, ih3]
          exact GoMap.get_set_self _ _ _
        · have hs1 : s ∈ p := by
            rcases List.mem_append.1 hs with h | h
            · exact h
            · exact absurd (List.mem_singleton.1 h) hsn
          show GoMap.get (GoMap.set _ _ _) s = _
          rw [GoMap.get_set_ne _ _ _ _ hsn, firstSeenRank_concat_of_mem p n s hs1]
          exact ih1 s hs1
      · intro s hs
        have hsn : s ≠ n := by
          intro e
          apply hs
          rw [e]
          exact List.mem_append_right _ (List.mem_singleton_self n)
        show GoMap.get (GoMap.set _ _ _) s = _
        rw [GoMap.get_set_ne _ _ _ _ hsn]
        exact ih2 s (fun h => hs (List.mem_append_left _ h))
      · have hk : n ∉ registerAll ∅ p := AList.lookup_eq_none.1 (ih2 n hn)
        have he : (GoMap.set (registerAll ∅ p) n
            ((registerAll ∅ p).entries.length : Int)).entries
              = ⟨n, ((registerAll ∅ p).entries.length : Int)⟩ :: (registerAll ∅ p).entries :=
          AList.insert_entries_of_neg hk
        rw [he, List.length_cons, ih3]

theorem GetId_registerAll_empty (p : List GoString) (n : GoString) :
    (GetId (registerAll ∅ p) n).1 = (firstSeenRank (p ++ [n]) n : Int) := by
  obtain ⟨h1, h2, h3⟩ := registerAll_empty_spec p
  by_cases hn : n ∈ p
  · rw [GetId_of_get_some _ n _ (h1 n hn), firstSeenRank_concat_of_mem p n n hn]
  · rw [GetId_of_get_none _ n (h2 n hn), firstSeenRank_concat_of_not_mem p n hn, h3]

theorem GetIdAll_empty_eq (names : List GoString) :
    (GetIdAll ∅ names).1 = names.map (fun s => (firstSeenRank names s : Int)) := by
  induction names using List.reverseRecOn with
  | nil => rfl
  | append_singleton p n ih =>
    rw [GetIdAll_concat, ih, List.map_append, List.map_singleton, GetId_registerAll_empty]
    congr 1
    apply List.map_congr_left
    intro s hs
    rw [firstSeenRank_concat_of_mem p n s hs]

theorem firstSeenRank_of_nodup (names : List GoString) (h : names.Nodup) :
    names.map (fun s => (firstSeenRank names s : Int))
      = (List.range names.length).map (fun i : Nat => (i : Int)) := by
  induction names using List.reverseRecOn with
  | nil => rfl
  | append_singleton p n ih =>
    have hp : p.Nodup := (List.nodup_append.1 h).1
    have hn : n ∉ p := by
      intro hm
      exact (List.nodup_append.1 h).2.2 hm (List.mem_singleton_self n)
    rw [List.map_append, List.map_singleton, List.length_append, List.length_singleton,
      List.range_succ, List.map_append, List.map_singleton,
      firstSeenRank_concat_of_not_mem p n hn, hp.dedup, ← ih hp]
    congr 1
    apply List.map_congr_left
    intro s hs
    rw [firstSeenRank_concat_of_mem p n s hs]

/-- C11. Starting from the empty vocabulary, the ids that `GetId` returns for a
sequence of names are, call by call, the number of distinct names that occur
before the first occurrence of the name.  A name already seen gets the id it
had and leaves the vocabulary unchanged; an unseen name gets the current size
of the vocabulary, which is the number of distinct names seen, and is
registered at it; pairwise distinct names get the ids 0, 1, 2, ... in order. -/
theorem C11_vocabulary_ids (names p : List GoString) (n : GoString) :
    (GetIdAll ∅ names).1 = names.map (fun s => (firstSeenRank names s : Int)) ∧
    (n ∈ p → GetId (registerAll ∅ p) n = ((firstSeenRank p n : Int), registerAll ∅ p)) ∧
    (n ∉ p → GetId (registerAll ∅ p) n
        = (((registerAll ∅ p).entries.length : Int),
            (registerAll ∅ p).set n ((registerAll ∅ p).entries.length : Int)) ∧
      (registerAll ∅ p).entries.length = p.dedup.length ∧
      (GetId (registerAll ∅ p) n).2.get n = some ((registerAll ∅ p).entries.length : Int)) ∧
    (names.Nodup →
      (GetIdAll ∅ names).1 = (List.range names.length).map (fun i : Nat => (i : Int))) := by
  obtain ⟨h1, h2, h3⟩ := registerAll_empty_spec p
  refine ⟨GetIdAll_empty_eq names, ?_, ?_, ?_⟩
  · intro hn
    exact GetId_of_get_some _ n _ (h1 n hn)
  · intro hn
    refine ⟨GetId_of_get_none _ n (h2 n hn), h3, ?_⟩
    rw [GetId_of_get_none _ n (h2 n hn)]
    exact GoMap.get_set_self _ _ _
  · intro hnd
    rw [GetIdAll_empty_eq, firstSeenRank_of_nodup names hnd]

/-! ## The split into train and test -/

theorem truncate_split (len : Nat) :
    truncate ((len : ℚ) * (8 / 10)) = ((4 * len / 5 : Nat) : Int) ∧
    Int.floor ((len : ℚ) * (8 / 10)) = ((4 * len / 5 : Nat) : Int) := by
  have hq : (0 : ℚ) ≤ (len : ℚ) * (8 / 10) := by positivity
  have hfloor : Int.floor ((len : ℚ) * (8 / 10)) = ((4 * len / 5 : Nat) : Int) := by
    rw [Int.floor_eq_iff]
    have hdm := Nat.div_add_mod (4 * len) 5
    have hlt : 4 * len % 5 < 5 := Nat.mod_lt _ (by norm_num)
    have hdm' : (5 : ℚ) * ((4 * len / 5 : Nat) : ℚ) + ((4 * len % 5 : Nat) : ℚ) = 4 * (len : ℚ) := by
      exact_mod_cast hdm
    have hlt' : ((4 * len % 5 : Nat) : ℚ) < 5 := by exact_mod_cast hlt
    have hge : (0 : ℚ) ≤ ((4 * len % 5 : Nat) : ℚ) := Nat.cast_nonneg _
    rw [Int.cast_natCast]
    constructor <;> linarith
  refine ⟨?_, hfloor⟩
  unfold truncate
  rw [if_pos hq, hfloor]

theorem splitData_eq (data : List Instance) (h : 1 ≤ data.length) :
    splitData data
      = Outcome.ok (data.take (4 * data.length / 5), data.drop (4 * data.length / 5 + 1)) := by
  have hn : 4 * data.length / 5 + 1 ≤ data.length := by omega
  have h1 : (0 : Int) ≤ ((4 * data.length / 5 : Nat) : Int)
      ∧ ((4 * data.length / 5 : Nat) : Int) ≤ (data.length : Int) := by
    constructor <;> omega
  have h2 : (0 : Int) ≤ ((4 * data.length / 5 : Nat) : Int) + 1
      ∧ ((4 * data.length / 5 : Nat) : Int) + 1 ≤ (data.length : Int) := by
    constructor <;> omega
  have h3 : (((4 * data.length / 5 : Nat) : Int) + 1).toNat = 4 * data.length / 5 + 1 := by
    omega
  unfold splitData
  simp only [(truncate_split data.length).1, sliceTo, sliceFrom, if_pos h1, if_pos h2,
    Int.toNat_ofNat, h3]

/-- C12. For a data list of length `L ≥ 1`, with `n = ⌊0.8 · L⌋`: the two slice
expressions are in range, `train` is the first `n` instances in their order,
`test` is the instances after index `n` in their order, so the instance at
index `n` is in neither and the two lengths add up to `L - 1`. -/
theorem C12_train_test_split (data : List Instance) (h : 1 ≤ data.length) :
    Int.floor ((data.length : ℚ) * (8 / 10)) = ((4 * data.length / 5 : Nat) : Int) ∧
    4 * data.length / 5 + 1 ≤ data.length ∧
    splitData data
      = Outcome.ok (data.take (4 * data.length / 5), data.drop (4 * data.length / 5 + 1)) ∧
    (data.take (4 * data.length / 5)).length = 4 * data.length / 5 ∧
    (data.take (4 * data.length / 5)).length + (data.drop (4 * data.length / 5 + 1)).length
      = data.length - 1 := by
  refine ⟨(truncate_split data.length).2, by omega, splitData_eq data h, ?_, ?_⟩
  · rw [List.length_take]
    omega
  · rw [List.length_take, List.length_drop]
    omega

theorem C12_train_test_split_witness :
    1 ≤ (List.replicate 5 ({ label := 1, features := ∅ } : Instance)).length ∧
    splitData (List.replicate 5 ({ label := 1, features := ∅ } : Instance))
      = Outcome.ok (List.replicate 4 ({ label := 1, features := ∅ } : Instance), []) :=
  ⟨by decide,
    (C12_train_test_split (List.replicate 5 ({ label := 1, features := ∅ } : Instance))
      (by decide)).2.2.1⟩

/-! ## The whole run -/

theorem splitData_nil : splitData [] = Outcome.panic := by
  decide!

/-- C13. The program has fatal paths: on the empty input the slice expression
`data[n+1:]` is `data[1:]` on a list of length 0 and panics; on the one-line
input `1 a` the call of `ParseLine` panics.  In both runs nothing is printed. -/
theorem C13_main_panics (parseFloat : GoString → Option ℚ) :
    main parseFloat [] = Outcome.panic ∧
    main parseFloat ["1 a".toList] = Outcome.panic := by
  constructor
  · unfold main
    simp only [ReadData, splitData_nil]
  · rfl

/-- C14. On the four-line example the parser delivers four instances, the
split index is 3, `train` is the first three instances and `test` is empty,
and each of the 10 epochs reports a train accuracy of 1 (the test accuracy,
0 divided by 0, is not a number). -/
theorem C14_end_to_end :
    ∃ data : List Instance,
      ReadData integerParseFloat exampleInput [] ∅ = Outcome.ok data ∧
      data.length = 4 ∧
      truncate ((data.length : ℚ) * (8 / 10)) = 3 ∧
      splitData data = Outcome.ok (data.take 3, []) ∧
      main integerParseFloat exampleInput
        = Outcome.ok (some ((List.range 10).map
            (fun i : Nat =>
              { iter := (i : Int), trainAccuracy := some 1, testAccuracy := none }))) := by
  obtain ⟨data, hdata, hlen⟩ : ∃ data : List Instance,
      ReadData integerParseFloat exampleInput [] ∅ = Outcome.ok data ∧ data.length = 4 :=
    ⟨_, rfl, by decide⟩
  refine ⟨data, hdata, hlen, ?_, ?_, by decide!⟩
  · rw [hlen]
    decide!
  · have hdrop : data.drop 4 = [] := List.drop_eq_nil_of_le (by omega)
    rw [splitData_eq data (by omega), hlen]
    exact congrArg (fun t => Outcome.ok (data.take 3, t)) hdrop

/-! ## What one call of `Learn` changes -/

theorem Learn_get_of_not_key (m : Model) (inst : Instance) (g : Int)
    (hg : inst.features.get g = none) :
    (Learn m inst).weight.get g = m.weight.get g ∧
    (Learn m inst).cumWeight.get g = m.cumWeight.get g := by
  by_cases h : predictForTraining m inst.features = inst.label
  · have : Learn m inst = m := by
      unfold Learn
      simp only
      rw [if_neg (not_not.2 h.symm)]
    rw [this]
    exact ⟨rfl, rfl⟩
  · rw [Learn_of_mistake m inst h]
    have hk := (GoMap.get_eq_none_iff inst.features g).1 hg
    exact ⟨learnStep_fold_weight_of_not_mem _ g _ m hk,
      learnStep_fold_cumWeight_of_not_mem _ g _ m hk⟩

theorem Learn_get_of_key (m : Model) (inst : Instance) (f : Int) (v : ℚ)
    (h : predictForTraining m inst.features ≠ inst.label) (hf : inst.features.get f = some v) :
    (Learn m inst).weight.get f = some (m.weight.getD f 0 + (inst.label : ℚ) * v) ∧
    (Learn m inst).cumWeight.get f
      = some (m.cumWeight.getD f 0 + (m.count : ℚ) * (inst.label : ℚ) * v) := by
  rw [Learn_of_mistake m inst h]
  have hk := (GoMap.get_iff_mem inst.features f v).1 hf
  exact ⟨learnStep_fold_weight_of_mem _ f v _ m inst.features.nodupKeys hk,
    learnStep_fold_cumWeight_of_mem _ f v _ m inst.features.nodupKeys hk⟩

theorem Learn_count_of_mistake (m : Model) (inst : Instance)
    (h : predictForTraining m inst.features ≠ inst.label) :
    (Learn m inst).count = m.count + 1 := by
  rw [Learn_of_mistake m inst h]

theorem Learn_of_no_mistake (m : Model) (inst : Instance)
    (h : predictForTraining m inst.features = inst.label) : Learn m inst = m := by
  unfold Learn
  simp only
  rw [if_neg (not_not.2 h.symm)]

/-- C20. `Learn` touches only the features of the instance: for a feature id
that is not a key of the instance's features, the entries of `weight` and of
`cumWeight` are the same after the call as before, in presence and in value,
whether or not a mistake occurred. -/
theorem C20_learn_frame (m : Model) (inst : Instance) (g : Int)
    (hg : inst.features.get g = none) :
    (Learn m inst).weight.get g = m.weight.get g ∧
    (Learn m inst).cumWeight.get g = m.cumWeight.get g :=
  Learn_get_of_not_key m inst g hg

theorem C20_learn_frame_witness :
    (singleFeature 0 2).get 1 = none ∧
    (Learn sampleModel { label := -1, features := singleFeature 0 2 }).weight.get 1
      = sampleModel.weight.get 1 ∧
    (Learn sampleModel { label := -1, features := singleFeature 0 2 }).cumWeight.get 1
      = sampleModel.cumWeight.get 1 :=
  ⟨by decide,
    C20_learn_frame sampleModel { label := -1, features := singleFeature 0 2 } 1 (by decide)⟩

/-! ## The label as a factor -/

/-- C15, as stated, fails: the labels 1 and 2 have the same sign, yet from the
initial model and the feature map `{0 ↦ 1}` the label 1 gives `weight[0] = 1`
and the label 2 gives `weight[0] = 2`. -/
theorem C15_same_sign_differs :
    Learn initialModel { label := 1, features := singleFeature 0 1 }
      ≠ Learn initialModel { label := 2, features := singleFeature 0 1 } := by
  intro h
  have h1 : (Learn initialModel { label := 1, features := singleFeature 0 1 }).weight.get 0
      = some 1 := by decide!
  have h2 : (Learn initialModel { label := 2, features := singleFeature 0 1 }).weight.get 0
      = some 2 := by decide!
  rw [h, h2] at h1
  exact absurd h1 (by decide!)

/-- C15 (amended). The label enters `Learn` by its value: a label other than
+1 and -1 always differs from the training prediction, and when `Learn`
updates both on `(L, x)` and on `(L', x)` the two models have the same counter
`count + 1`, and for every feature `f ↦ v` of `x` their weights are
`weight[f] + L·v` and `weight[f] + L'·v` and their cumulative weights
`cumWeight[f] + count·L·v` and `cumWeight[f] + count·L'·v`. -/
theorem C15_label_as_factor (m : Model) (x : GoMap Int ℚ) (L L' : Int)
    (hL : predictForTraining m x ≠ L) (hL' : predictForTraining m x ≠ L') :
    (∀ K : Int, K ≠ 1 → K ≠ -1 → predictForTraining m x ≠ K) ∧
    (Learn m { label := L, features := x }).count = m.count + 1 ∧
    (Learn m { label := L', features := x }).count = m.count + 1 ∧
    (∀ f v, x.get f = some v →
      (Learn m { label := L, features := x }).weight.get f
        = some (m.weight.getD f 0 + (L : ℚ) * v) ∧
      (Learn m { label := L', features := x }).weight.get f
        = some (m.weight.getD f 0 + (L' : ℚ) * v) ∧
      (Learn m { label := L, features := x }).cumWeight.get f
        = some (m.cumWeight.getD f 0 + (m.count : ℚ) * (L : ℚ) * v) ∧
      (Learn m { label := L', features := x }).cumWeight.get f
        = some (m.cumWeight.getD f 0 + (m.count : ℚ) * (L' : ℚ) * v)) := by
  refine ⟨?_, Learn_count_of_mistake m _ hL, Learn_count_of_mistake m _ hL', ?_⟩
  · intro K h1 h2
    unfold predictForTraining
    split
    · exact fun e => h1 e.symm
    · exact fun e => h2 e.symm
  · intro f v hf
    have a := Learn_get_of_key m { label := L, features := x } f v hL hf
    have b := Learn_get_of_key m { label := L', features := x } f v hL' hf
    exact ⟨a.1, b.1, a.2, b.2⟩

theorem C15_label_as_factor_witness :
    predictForTraining initialModel (singleFeature 0 1) ≠ 1 ∧
    predictForTraining initialModel (singleFeature 0 1) ≠ 2 ∧
    (Learn initialModel { label := 1, features := singleFeature 0 1 }).count = 2 ∧
    (Learn initialModel { label := 2, features := singleFeature 0 1 }).count = 2 :=
  ⟨by decide!, by decide!,
    (C15_label_as_factor initialModel (singleFeature 0 1) 1 2 (by decide!) (by decide!)).2.1,
    (C15_label_as_factor initialModel (singleFeature 0 1) 1 2 (by decide!) (by decide!)).2.2.1⟩

/-! ## The effect of an update on the raw score -/

theorem sum_pos_of_nonneg_of_exists (l : List ℚ) (h0 : ∀ a ∈ l, 0 ≤ a)
    (h1 : ∃ a ∈ l, 0 < a) : 0 < l.sum := by
  induction l with
  | nil =>
    obtain ⟨a, ha, _⟩ := h1
    simp at ha
  | cons b l ih =>
    rw [List.sum_cons]
    have hb : 0 ≤ b := h0 b (List.mem_cons_self _ _)
    have hl : 0 ≤ l.sum := List.sum_nonneg (fun a ha => h0 a (List.mem_cons_of_mem _ ha))
    obtain ⟨a, ha, hpos⟩ := h1
    rcases List.mem_cons.1 ha with e | ha
    · rw [e] at hpos
      linarith
    · have := ih (fun a ha => h0 a (List.mem_cons_of_mem _ ha)) ⟨a, ha, hpos⟩
      linarith

theorem squaredNorm_nonneg (x : GoMap Int ℚ) : 0 ≤ squaredNorm x := by
  unfold squaredNorm
  apply List.sum_nonneg
  intro a ha
  obtain ⟨kv, _, rfl⟩ := List.mem_map.1 ha
  exact mul_self_nonneg _

theorem squaredNorm_pos (x : GoMap Int ℚ) (h : ∃ f v, x.get f = some v ∧ v ≠ 0) :
    0 < squaredNorm x := by
  unfold squaredNorm
  apply sum_pos_of_nonneg_of_exists
  · intro a ha
    obtain ⟨kv, _, rfl⟩ := List.mem_map.1 ha
    exact mul_self_nonneg _
  · obtain ⟨f, v, hf, hv⟩ := h
    refine ⟨v * v, List.mem_map.2 ⟨⟨f, v⟩, (GoMap.get_iff_mem x f v).1 hf, rfl⟩, ?_⟩
    exact mul_self_pos.2 hv

theorem sum_map_add_mul (l : List ((_ : Int) × ℚ)) (g : Int → ℚ) (y : ℚ) :
    (l.map (fun kv => (g kv.1 + y * kv.2) * kv.2)).sum
      = (l.map (fun kv => g kv.1 * kv.2)).sum + y * (l.map (fun kv => kv.2 * kv.2)).sum := by
  induction l with
  | nil => simp
  | cons kv l ih =>
    simp only [List.map_cons, List.sum_cons, ih]
    ring

theorem trainingScore_after_update (m : Model) (inst : Instance)
    (h : predictForTraining m inst.features ≠ inst.label) :
    trainingScore (Learn m inst) inst.features
      = trainingScore m inst.features + (inst.label : ℚ) * squaredNorm inst.features := by
  rw [trainingScore_eq, trainingScore_eq]
  unfold weightedSum squaredNorm
  rw [← sum_map_add_mul inst.features.entries (fun k => m.weight.getD k 0) (inst.label : ℚ)]
  congr 1
  apply List.map_congr_left
  intro kv hkv
  have hget : inst.features.get kv.1 = some kv.2 :=
    (GoMap.get_iff_mem inst.features kv.1 kv.2).2 hkv
  have hw := (Learn_get_of_key m inst kv.1 kv.2 h hget).1
  show ((Learn m inst).weight.get kv.1).getD 0 * kv.2 = _
  rw [hw]
  rfl

/-- C19. When `Learn` updates on an instance `(y, x)` with `y` equal to +1 or
-1, the raw training score of `x` under the new weights is the old score plus
`y` times the sum of the squares of the values of `x`; so `y` times the score
does not decrease, and it increases strictly when `x` has a non-zero value. -/
theorem C19_update_moves_score (m : Model) (y : Int) (x : GoMap Int ℚ)
    (hy : y = 1 ∨ y = -1) (h : predictForTraining m x ≠ y) :
    trainingScore (Learn m { label := y, features := x }) x
      = trainingScore m x + (y : ℚ) * squaredNorm x ∧
    (y : ℚ) * trainingScore m x
      ≤ (y : ℚ) * trainingScore (Learn m { label := y, features := x }) x ∧
    ((∃ f v, x.get f = some v ∧ v ≠ 0) →
      (y : ℚ) * trainingScore m x
        < (y : ℚ) * trainingScore (Learn m { label := y, features := x }) x) := by
  have hs := trainingScore_after_update m { label := y, features := x } h
  have hy2 : (y : ℚ) * (y : ℚ) = 1 := by
    rcases hy with e | e <;> rw [e] <;> norm_num
  have hmul : (y : ℚ) * trainingScore (Learn m { label := y, features := x }) x
      = (y : ℚ) * trainingScore m x + squaredNorm x := by
    rw [hs, mul_add, ← mul_assoc, hy2, one_mul]
  refine ⟨hs, ?_, ?_⟩
  · rw [hmul]
    linarith [squaredNorm_nonneg x]
  · intro hx
    rw [hmul]
    linarith [squaredNorm_pos x hx]

theorem C19_update_moves_score_witness :
    ((-1 : Int) = 1 ∨ (-1 : Int) = -1) ∧
    predictForTraining sampleModel (singleFeature 0 2) ≠ -1 ∧
    trainingScore (Learn sampleModel { label := -1, features := singleFeature 0 2 })
        (singleFeature 0 2)
      = trainingScore sampleModel (singleFeature 0 2)
        + ((-1 : Int) : ℚ) * squaredNorm (singleFeature 0 2) :=
  ⟨by decide, by decide!,
    (C19_update_moves_score sampleModel (-1) (singleFeature 0 2) (by decide) (by decide!)).1⟩

/-! ## Runs of `Learn` from the initial model -/

theorem updates_cons_of_mistake (m : Model) (inst : Instance) (rest : List Instance)
    (h : predictForTraining m inst.features ≠ inst.label) :
    updates m (inst :: rest) = (inst, Learn m inst) :: updates (Learn m inst) rest := by
  rw [updates, if_pos (Ne.symm h)]

theorem updates_cons_of_no_mistake (m : Model) (inst : Instance) (rest : List Instance)
    (h : predictForTraining m inst.features = inst.label) :
    updates m (inst :: rest) = updates m rest := by
  rw [updates, if_neg (not_not.2 h.symm), Learn_of_no_mistake m inst h]

theorem Learn_getD_of_key (m : Model) (inst : Instance) (f : Int) (v : ℚ)
    (h : predictForTraining m inst.features ≠ inst.label) (hf : inst.features.get f = some v) :
    (Learn m inst).weight.getD f 0 = m.weight.getD f 0 + (inst.label : ℚ) * v ∧
    (Learn m inst).cumWeight.getD f 0
      = m.cumWeight.getD f 0 + (m.count : ℚ) * (inst.label : ℚ) * v := by
  obtain ⟨h1, h2⟩ := Learn_get_of_key m inst f v h hf
  constructor
  · show ((Learn m inst).weight.get f).getD 0 = _
    rw [h1]; rfl
  · show ((Learn m inst).cumWeight.get f).getD 0 = _
    rw [h2]; rfl

theorem Learn_getD_of_not_key (m : Model) (inst : Instance) (f : Int)
    (hf : inst.features.get f = none) :
    (Learn m inst).weight.getD f 0 = m.weight.getD f 0 ∧
    (Learn m inst).cumWeight.getD f 0 = m.cumWeight.getD f 0 := by
  obtain ⟨h1, h2⟩ := Learn_get_of_not_key m inst f hf
  constructor
  · show ((Learn m inst).weight.get f).getD 0 = (m.weight.get f).getD 0
    rw [h1]
  · show ((Learn m inst).cumWeight.get f).getD 0 = (m.cumWeight.get f).getD 0
    rw [h2]

/-- One update adds the new weight of `f` to `count * weight[f] - cumWeight[f]`. -/
theorem Learn_potential (m : Model) (inst : Instance) (f : Int)
    (h : predictForTraining m inst.features ≠ inst.label) :
    ((Learn m inst).count : ℚ) * (Learn m inst).weight.getD f 0
        - (Learn m inst).cumWeight.getD f 0
      = (m.count : ℚ) * m.weight.getD f 0 - m.cumWeight.getD f 0
        + (Learn m inst).weight.getD f 0 := by
  rw [Learn_count_of_mistake m inst h]
  push_cast
  cases hf : inst.features.get f with
  | none =>
    obtain ⟨h1, h2⟩ := Learn_getD_of_not_key m inst f hf
    rw [h1, h2]
    ring
  | some v =>
    obtain ⟨h1, h2⟩ := Learn_getD_of_key m inst f v h hf
    rw [h1, h2]
    ring

theorem foldl_Learn_spec (insts : List Instance) (m : Model) (f : Int) :
    (insts.foldl Learn m).count = m.count + ((updates m insts).length : Int) ∧
    ((insts.foldl Learn m).count : ℚ) * (insts.foldl Learn m).weight.getD f 0
        - (insts.foldl Learn m).cumWeight.getD f 0
      = (m.count : ℚ) * m.weight.getD f 0 - m.cumWeight.getD f 0
        + ((updates m insts).map (fun u => u.2.weight.getD f 0)).sum := by
  induction insts generalizing m with
  | nil => simp [updates]
  | cons inst rest ih =>
    rw [List.foldl_cons]
    by_cases h : predictForTraining m inst.features = inst.label
    · rw [updates_cons_of_no_mistake m inst rest h, Learn_of_no_mistake m inst h]
      exact ih m
    · obtain ⟨ih1, ih2⟩ := ih (Learn m inst)
      rw [updates_cons_of_mistake m inst rest h]
      constructor
      · rw [ih1, Learn_count_of_mistake m inst h, List.length_cons]
        push_cast
        ring
      · rw [ih2, Learn_potential m inst f h, List.map_cons, List.sum_cons]
        ring

/-- C16. After `Learn` has been called on a sequence of instances from the
initial model, with `k` updates made and `w_1, ..., w_k` the weights right
after each of them (`w_0 = 0`): the counter is `k + 1` and, for every feature
id, `weight[f] - cumWeight[f] / count` is `(w_0[f] + w_1[f] + ... + w_k[f]) /
(k + 1)`, the average of the weight trajectory. -/
theorem C16_time_average (insts : List Instance) (f : Int) :
    (insts.foldl Learn initialModel).count
      = ((updates initialModel insts).length : Int) + 1 ∧
    (insts.foldl Learn initialModel).weight.getD f 0
        - (insts.foldl Learn initialModel).cumWeight.getD f 0
          / ((insts.foldl Learn initialModel).count : ℚ)
      = (0 + ((updates initialModel insts).map (fun u => u.2.weight.getD f 0)).sum)
          / (((updates initialModel insts).length : ℚ) + 1) := by
  obtain ⟨h1, h2⟩ := foldl_Learn_spec insts initialModel f
  have hc : (insts.foldl Learn initialModel).count
      = ((updates initialModel insts).length : Int) + 1 := by
    rw [h1]
    show (1 : Int) + _ = _
    ring
  have hq : ((insts.foldl Learn initialModel).count : ℚ)
      = ((updates initialModel insts).length : ℚ) + 1 := by
    rw [hc]
    push_cast
    ring
  have hpos : (0 : ℚ) < ((updates initialModel insts).length : ℚ) + 1 := by positivity
  have h0 : (initialModel.count : ℚ) * initialModel.weight.getD f 0
      - initialModel.cumWeight.getD f 0 = 0 := by
    simp [initialModel, GoMap.getD, GoMap.get]
  refine ⟨hc, ?_⟩
  rw [h0, hq] at h2
  rw [hq, ← h2]
  field_simp
  ring

theorem Learn_weight_isSome (m : Model) (inst : Instance) (k : Int)
    (h : predictForTraining m inst.features ≠ inst.label) :
    (((Learn m inst).weight.get k).isSome = true
      ↔ (m.weight.get k).isSome = true ∨ (inst.features.get k).isSome = true) ∧
    (((Learn m inst).cumWeight.get k).isSome = true
      ↔ (m.cumWeight.get k).isSome = true ∨ (inst.features.get k).isSome = true) := by
  cases hf : inst.features.get k with
  | none =>
    obtain ⟨h1, h2⟩ := Learn_get_of_not_key m inst k hf
    rw [h1, h2]
    simp
  | some v =>
    obtain ⟨h1, h2⟩ := Learn_get_of_key m inst k v h hf
    rw [h1, h2]
    simp

theorem foldl_Learn_keys (insts : List Instance) (m : Model) (k : Int) :
    (((insts.foldl Learn m).weight.get k).isSome = true
      ↔ (m.weight.get k).isSome = true
        ∨ ∃ u ∈ updates m insts, (u.1.features.get k).isSome = true) ∧
    (((insts.foldl Learn m).cumWeight.get k).isSome = true
      ↔ (m.cumWeight.get k).isSome = true
        ∨ ∃ u ∈ updates m insts, (u.1.features.get k).isSome = true) := by
  induction insts generalizing m with
  | nil => simp [updates]
  | cons inst rest ih =>
    rw [List.foldl_cons]
    by_cases h : predictForTraining m inst.features = inst.label
    · rw [updates_cons_of_no_mistake m inst rest h, Learn_of_no_mistake m inst h]
      exact ih m
    · obtain ⟨ih1, ih2⟩ := ih (Learn m inst)
      obtain ⟨s1, s2⟩ := Learn_weight_isSome m inst k h
      rw [updates_cons_of_mistake m inst rest h, ih1, ih2, s1, s2]
      simp only [List.mem_cons, exists_eq_or_imp, or_assoc]
      exact ⟨trivial, trivial⟩

/-- C17. In every model reached from the initial model by calls of `Learn`,
`weight` and `cumWeight` have the same keys, namely the feature ids of the
instances on which an update was made; and from any model in which the two
maps have the same keys, `Learn` gives a model in which they do. -/
theorem C17_shared_keys (insts : List Instance) (m : Model) (inst : Instance) (k : Int) :
    (((insts.foldl Learn initialModel).weight.get k).isSome = true
      ↔ ∃ u ∈ updates initialModel insts, (u.1.features.get k).isSome = true) ∧
    (((insts.foldl Learn initialModel).cumWeight.get k).isSome = true
      ↔ ∃ u ∈ updates initialModel insts, (u.1.features.get k).isSome = true) ∧
    ((∀ j, (m.weight.get j).isSome = true ↔ (m.cumWeight.get j).isSome = true) →
      ∀ j, ((Learn m inst).weight.get j).isSome = true
        ↔ ((Learn m inst).cumWeight.get j).isSome = true) := by
  obtain ⟨h1, h2⟩ := foldl_Learn_keys insts initialModel k
  have e1 : (initialModel.weight.get k).isSome = false := rfl
  have e2 : (initialModel.cumWeight.get k).isSome = false := rfl
  rw [e1] at h1
  rw [e2] at h2
  refine ⟨by simpa using h1, by simpa using h2, ?_⟩
  intro hm j
  by_cases h : predictForTraining m inst.features = inst.label
  · rw [Learn_of_no_mistake m inst h]
    exact hm j
  · obtain ⟨s1, s2⟩ := Learn_weight_isSome m inst j h
    rw [s1, s2, hm j]

/-- C18. In every model reached from the initial model by calls of `Learn`,
the counter is 1 plus the number of calls in which the training prediction
differed from the label; it is at least 1, a call of `Learn` never lowers the
counter of any model, and `Predict` never divides by zero on such a model. -/
theorem C18_counter_invariant (insts : List Instance) (m : Model) (inst : Instance)
    (x : GoMap Int ℚ) :
    (insts.foldl Learn initialModel).count
      = 1 + ((updates initialModel insts).length : Int) ∧
    1 ≤ (insts.foldl Learn initialModel).count ∧
    m.count ≤ (Learn m inst).count ∧
    (insts.foldl Learn initialModel).count ≠ 0 ∧
    (∃ r, Predict (insts.foldl Learn initialModel) x = some r) := by
  have hc : (insts.foldl Learn initialModel).count
      = 1 + ((updates initialModel insts).length : Int) :=
    (foldl_Learn_spec insts initialModel 0).1
  have hne : (insts.foldl Learn initialModel).count ≠ 0 := by
    rw [hc]; omega
  refine ⟨hc, by rw [hc]; omega, ?_, hne, ?_⟩
  · by_cases h : predictForTraining m inst.features = inst.label
    · rw [Learn_of_no_mistake m inst h]
    · rw [Learn_count_of_mistake m inst h]
      omega
  · unfold Predict
    rw [predictScore_eq _ hne]
    exact ⟨_, rfl⟩

/-! ## Runs of `main` that do not panic -/

theorem foldl_Learn_count_pos (insts : List Instance) (m : Model) (h : 1 ≤ m.count) :
    1 ≤ (insts.foldl Learn m).count := by
  rw [(foldl_Learn_spec insts m 0).1]
  omega

theorem predictAll_some (m : Model) (hc : m.count ≠ 0) (data : List Instance)
    (predicts : List Int) :
    ∃ l, predictAll m data predicts = some l ∧ l.length = predicts.length + data.length := by
  induction data generalizing predicts with
  | nil => exact ⟨predicts, rfl, rfl⟩
  | cons inst rest ih =>
    have hp : Predict m inst.features
        = some (if weightedSum m.weight inst.features
                  - (1 / (m.count : ℚ)) * weightedSum m.cumWeight inst.features > 0
                then 1 else -1) := by
      unfold Predict
      rw [predictScore_eq m hc]
    obtain ⟨l, hl1, hl2⟩ := ih (predicts ++
      [if weightedSum m.weight inst.features
          - (1 / (m.count : ℚ)) * weightedSum m.cumWeight inst.features > 0 then 1 else -1])
    refine ⟨l, ?_, ?_⟩
    · rw [predictAll, hp]
      exact hl1
    · rw [hl2]
      simp only [List.length_append, List.length_cons, List.length_nil]
      omega

theorem epochs_some (train test : List Instance) (trainGolds testGolds : List Int)
    (fuel : Nat) (iter : Int) (m : Model) (hc : 1 ≤ m.count) :
    ∃ reports, epochs train test trainGolds testGolds fuel iter m = some reports ∧
      reports.map (fun r => r.iter) = (List.range fuel).map (fun i : Nat => iter + (i : Int)) := by
  induction fuel generalizing iter m with
  | zero => exact ⟨[], rfl, rfl⟩
  | succ fuel ih =>
    have hc1 : 1 ≤ (train.foldl Learn m).count := foldl_Learn_count_pos train m hc
    have hne : (train.foldl Learn m).count ≠ 0 := by omega
    obtain ⟨tp, htp, _⟩ := predictAll_some (train.foldl Learn m) hne train []
    obtain ⟨sp, hsp, _⟩ := predictAll_some (train.foldl Learn m) hne test []
    obtain ⟨rest, hrest, hiter⟩ := ih (iter + 1) (train.foldl Learn m) hc1
    refine ⟨{ iter := iter
              trainAccuracy := GetAccuracy trainGolds tp
              testAccuracy := GetAccuracy testGolds sp } :: rest, ?_, ?_⟩
    · rw [epochs]
      simp only [htp, hsp, hrest]
    · rw [List.map_cons, hiter, List.range_succ_eq_map, List.map_cons, List.map_map]
      simp only [Nat.cast_zero, add_zero, List.cons.injEq, true_and]
      apply List.map_congr_left
      intro i _
      simp only [Function.comp, Nat.succ_eq_add_one, Nat.cast_add, Nat.cast_one]
      ring

/-- A run of `main` either panics or prints one line for each of the epochs
0, 1, ..., 9, in this order. -/
theorem main_panic_or_reports (parseFloat : GoString → Option ℚ) (input : List GoString) :
    main parseFloat input = Outcome.panic ∨
    ∃ reports, main parseFloat input = Outcome.ok (some reports) ∧
      reports.map (fun r => r.iter) = [0, 1, 2, 3, 4, 5, 6, 7, 8, 9] := by
  cases hr : ReadData parseFloat input [] ∅ with
  | panic =>
    left
    unfold main
    rw [hr]
  | error =>
    left
    unfold main
    rw [hr]
  | ok data =>
    cases hs : splitData data with
    | panic =>
      left
      unfold main
      rw [hr]
      simp only [hs]
    | error =>
      left
      unfold main
      rw [hr]
      simp only [hs]
    | ok tt =>
      obtain ⟨train, test⟩ := tt
      right
      obtain ⟨reports, h1, h2⟩ := epochs_some train test (ExtractGoldLabels train)
        (ExtractGoldLabels test) 10 0 initialModel (by decide)
      refine ⟨reports, ?_, ?_⟩
      · unfold main
        rw [hr]
        simp only [hs, h1]
      · rw [h2]
        decide

end Perceptron
